import Mathlib

/-!
Verification of Heimer's grid-discretized simulated-annealing layout
optimizer (`src/layout_optimizer.cpp` / `src/layout_optimizer.hpp`).

The C++ `Layout` owns heap-allocated `Row` and `Cell` objects linked by raw
pointers.  Here cells live in a flat heap (`Layout.cellHeap`) and are
addressed by their index in that list; rows and adjacency lists hold cell
indices instead of pointers.  All C++ `int` fields become `ℤ`; the `double`
values (`minEdgeLength`, the running `cost`, the extraction maxima) become
`ℚ`, which is exact for every value the program actually computes with them
except for the quotient `gain`, whose IEEE-754 special cases (0/0 = NaN,
x/0 = ±inf, NaN comparing false) are modeled explicitly by `DVal`.
-/

namespace Heimer

/-- Mirror of `LayoutOptimizer::Rect` (`layout_optimizer.hpp` lines 79-92):
four C++ `int` fields `x`, `y`, `w`, `h`, zero-initialized. -/
@[ext]
structure Rect where
  x : ℤ
  y : ℤ
  w : ℤ
  h : ℤ
deriving DecidableEq

/-- Mirror of `LayoutOptimizer::Cell` (`layout_optimizer.hpp` lines 94-146).
The C++ `in`/`out` adjacency vectors hold `Cell *` pointers; here they hold
heap indices (`inn` because `in` is a Lean keyword).  `node` is the index of
the attached node (`NodeBase::index()`), `none` for an empty cell. -/
@[ext]
structure Cell where
  inn : List ℕ
  out : List ℕ
  node : Option ℤ
  rect : Rect
  stash : Rect
deriving DecidableEq

instance : Inhabited Cell := ⟨⟨[], [], none, ⟨0, 0, 0, 0⟩, ⟨0, 0, 0, 0⟩⟩⟩

/-- Mirror of `LayoutOptimizer::Row` (`layout_optimizer.hpp` lines 148-163):
the row's rectangle origin and the ordered list of its cells. -/
@[ext]
structure Row where
  rectX : ℤ
  rectY : ℤ
  cells : List ℕ
deriving DecidableEq

instance : Inhabited Row := ⟨⟨0, 0, []⟩⟩

/-- Mirror of `LayoutOptimizer::Layout` (`layout_optimizer.hpp` lines
165-182) together with the cell heap standing in for the C++ free store. -/
structure Layout where
  minEdgeLength : ℚ
  all : List ℕ
  rows : List Row
  cellHeap : List Cell
deriving DecidableEq

/-- Dereference a cell index, as the C++ code dereferences a `Cell *`. -/
def Layout.cellAt (st : Layout) (i : ℕ) : Cell := st.cellHeap.getD i default

/-- Mirror of `Cell::distance` (`layout_optimizer.hpp` lines 100-105):
Manhattan distance between the two cell centers.  All operands are C++
`int`s, so `rect.w / 2` truncates toward zero (`Int.tdiv`); the `double`
return value is always integer-valued. -/
def distance (a b : Cell) : ℤ :=
  |a.rect.x + Int.tdiv a.rect.w 2 - b.rect.x - Int.tdiv b.rect.w 2|
    + |a.rect.y + Int.tdiv a.rect.h 2 - b.rect.y - Int.tdiv b.rect.h 2|

/-- Mirror of `Cell::getConnectionCost` (`layout_optimizer.hpp` 107-115). -/
def connectionCost (st : Layout) (c : Cell) (conns : List ℕ) : ℤ :=
  (conns.map (fun i => distance c (st.cellAt i))).sum

/-- Mirror of `Cell::getOutCost` (`layout_optimizer.hpp` 117-120). -/
def outCost (st : Layout) (c : Cell) : ℤ := connectionCost st c c.out

/-- Mirror of `Cell::getCompoundCost` (`layout_optimizer.hpp` 122-125). -/
def compoundCost (st : Layout) (c : Cell) : ℤ :=
  connectionCost st c c.inn + connectionCost st c c.out

/-- Mirror of `LayoutOptimizer::calculateCost` (`layout_optimizer.cpp`
90-98): sum of `getOutCost` over the active cells. -/
def calculateCost (st : Layout) : ℤ :=
  (st.all.map (fun i => outCost st (st.cellAt i))).sum

/-- Mirror of `LayoutOptimizer::Change` (`layout_optimizer.hpp` 48-69).
The `type` field is always `Swap` and never read, so it is omitted; cells
and rows are recorded as indices. -/
structure Change where
  sourceCell : ℕ
  targetCell : ℕ
  sourceRow : ℕ
  targetRow : ℕ
  sourceIndex : ℕ
  targetIndex : ℕ
deriving DecidableEq

/-- Write cell index `cid` into slot `i` of row `r`
(`row->cells.at(i) = cell`). -/
def Layout.setSlot (st : Layout) (r i cid : ℕ) : Layout :=
  { st with
    rows := st.rows.set r
      (let row := st.rows.getD r default
       { row with cells := row.cells.set i cid }) }

/-- Apply `f` to the cell at heap index `i` (a mutation of `*cell`). -/
def Layout.modifyCell (st : Layout) (i : ℕ) (f : Cell → Cell) : Layout :=
  { st with cellHeap := st.cellHeap.set i (f (st.cellHeap.getD i default)) }

/-- Mirror of `LayoutOptimizer::doChange` (`layout_optimizer.cpp` 194-204):
exchange the two cells between their slots, then for each relocated cell
push the old rectangle onto the stash and move `x`/`y` to the new slot's
pitch position (width and height are left untouched). -/
def doChange (minW : ℤ) (ch : Change) (st : Layout) : Layout :=
  let st1 := st.setSlot ch.sourceRow ch.sourceIndex ch.targetCell
  let st2 := st1.setSlot ch.targetRow ch.targetIndex ch.sourceCell
  let tRow := st2.rows.getD ch.targetRow default
  let sRow := st2.rows.getD ch.sourceRow default
  let st3 := st2.modifyCell ch.sourceCell (fun c =>
    { c with
      stash := c.rect
      rect := { c.rect with
                x := tRow.rectX + (ch.targetIndex : ℤ) * minW
                y := tRow.rectY } })
  st3.modifyCell ch.targetCell (fun c =>
    { c with
      stash := c.rect
      rect := { c.rect with
                x := sRow.rectX + (ch.sourceIndex : ℤ) * minW
                y := sRow.rectY } })

/-- Mirror of `LayoutOptimizer::undoChange` (`layout_optimizer.cpp`
186-192): restore both slot assignments and pop each stashed rectangle. -/
def undoChange (ch : Change) (st : Layout) : Layout :=
  let st1 := st.setSlot ch.sourceRow ch.sourceIndex ch.sourceCell
  let st2 := st1.setSlot ch.targetRow ch.targetIndex ch.targetCell
  let st3 := st2.modifyCell ch.sourceCell (fun c => { c with rect := c.stash })
  st3.modifyCell ch.targetCell (fun c => { c with rect := c.stash })

/-- What `LayoutOptimizer::planChange` (`layout_optimizer.cpp` 206-242)
guarantees about the change it returns: both slots exist, the recorded
cells are the current occupants of those slots, and the two cells are
distinct (the do-while retries until `sourceCell != targetCell`). -/
def planned (st : Layout) (ch : Change) : Prop :=
  ch.sourceRow < st.rows.length ∧
  ch.targetRow < st.rows.length ∧
  ch.sourceIndex < (st.rows.getD ch.sourceRow default).cells.length ∧
  ch.targetIndex < (st.rows.getD ch.targetRow default).cells.length ∧
  (st.rows.getD ch.sourceRow default).cells.getD ch.sourceIndex 0 = ch.sourceCell ∧
  (st.rows.getD ch.targetRow default).cells.getD ch.targetIndex 0 = ch.targetCell ∧
  ch.sourceCell ≠ ch.targetCell ∧
  ch.sourceCell < st.cellHeap.length ∧
  ch.targetCell < st.cellHeap.length

instance (st : Layout) (ch : Change) : Decidable (planned st ch) := by
  unfold planned
  exact inferInstance

section ListHelpers

variable {α : Type _}

theorem getD_set_self (l : List α) (i : ℕ) (a d : α) (h : i < l.length) :
    (l.set i a).getD i d = a := by
  simp [List.getD_eq_getElem?_getD, List.getElem?_set, h]

theorem getD_set_ne (l : List α) {i j : ℕ} (a d : α) (h : i ≠ j) :
    (l.set i a).getD j d = l.getD j d := by
  simp [List.getD_eq_getElem?_getD, List.getElem?_set, h]

theorem sum_map_add_int {β : Type _} (l : List β) (f g : β → ℤ) :
    (l.map (fun x => f x + g x)).sum = (l.map f).sum + (l.map g).sum := by
  induction l with
  | nil => simp
  | cons x xs ih => simp [ih]; ring

end ListHelpers

/-- The heap cell seen through `modifyCell`. -/
theorem cellAt_modifyCell (st : Layout) (j : ℕ) (f : Cell → Cell) (i : ℕ) :
    (st.modifyCell j f).cellAt i =
      if j < st.cellHeap.length ∧ i = j then f (st.cellAt j) else st.cellAt i := by
  unfold Layout.modifyCell Layout.cellAt
  by_cases hj : j < st.cellHeap.length
  · by_cases hij : i = j
    · subst hij
      simp [List.getD_eq_getElem?_getD, List.getElem?_set, hj]
    · have hji : ¬(j = i) := fun h => hij h.symm
      simp [List.getD_eq_getElem?_getD, List.getElem?_set, hji, hj, hij]
  · rw [show st.cellHeap.set j (f (st.cellHeap.getD j default)) = st.cellHeap from
      List.set_eq_of_length_le (Nat.le_of_not_lt hj)]
    simp [hj]

theorem cellAt_setSlot (st : Layout) (r i cid : ℕ) (k : ℕ) :
    (st.setSlot r i cid).cellAt k = st.cellAt k := rfl

theorem all_setSlot (st : Layout) (r i cid : ℕ) : (st.setSlot r i cid).all = st.all := rfl

theorem all_modifyCell (st : Layout) (j : ℕ) (f : Cell → Cell) :
    (st.modifyCell j f).all = st.all := rfl

theorem rows_modifyCell (st : Layout) (j : ℕ) (f : Cell → Cell) :
    (st.modifyCell j f).rows = st.rows := rfl

theorem heapLen_setSlot (st : Layout) (r i cid : ℕ) :
    (st.setSlot r i cid).cellHeap.length = st.cellHeap.length := rfl

theorem heapLen_modifyCell (st : Layout) (j : ℕ) (f : Cell → Cell) :
    (st.modifyCell j f).cellHeap.length = st.cellHeap.length := by
  simp [Layout.modifyCell]

theorem rowsLen_setSlot (st : Layout) (r i cid : ℕ) :
    (st.setSlot r i cid).rows.length = st.rows.length := by
  simp [Layout.setSlot]

/-- Slot writes do not move or resize any row rectangle. -/
theorem rowRect_setSlot (st : Layout) (r i cid q : ℕ) :
    ((st.setSlot r i cid).rows.getD q default).rectX = (st.rows.getD q default).rectX ∧
    ((st.setSlot r i cid).rows.getD q default).rectY = (st.rows.getD q default).rectY := by
  unfold Layout.setSlot
  by_cases hr : r < st.rows.length
  · by_cases hq : r = q
    · subst hq
      simp [List.getD_eq_getElem?_getD, List.getElem?_set, hr]
    · simp [List.getD_eq_getElem?_getD, List.getElem?_set, hq]
  · have hset : ∀ row, st.rows.set r row = st.rows :=
      fun row => List.set_eq_of_length_le (Nat.le_of_not_lt hr)
    simp [hset]

theorem set_getD_self {α : Type _} (l : List α) (i : ℕ) (d : α) (h : i < l.length) :
    l.set i (l.getD i d) = l := by
  apply List.ext_getElem?
  intro q
  rw [List.getElem?_set]
  split
  · next hq =>
    subst hq
    simp [List.getD_eq_getElem?_getD, h, List.getElem?_eq_getElem h]
  · rfl

/-- Equality of the fields that `doChange`/`undoChange` never touch. -/
def cellFieldsEq (a b : Cell) : Prop :=
  a.node = b.node ∧ a.inn = b.inn ∧ a.out = b.out

theorem cellFieldsEq_refl (c : Cell) : cellFieldsEq c c := ⟨rfl, rfl, rfl⟩

theorem cellFieldsEq_trans {a b c : Cell} (h1 : cellFieldsEq a b) (h2 : cellFieldsEq b c) :
    cellFieldsEq a c :=
  ⟨h1.1.trans h2.1, h1.2.1.trans h2.2.1, h1.2.2.trans h2.2.2⟩

theorem modifyCell_cellFields (st : Layout) (j : ℕ) (f : Cell → Cell)
    (hf : ∀ c, cellFieldsEq (f c) c) (i : ℕ) :
    cellFieldsEq ((st.modifyCell j f).cellAt i) (st.cellAt i) := by
  rw [cellAt_modifyCell]
  split
  · next h => rw [h.2]; exact hf _
  · exact cellFieldsEq_refl _

/-- Neither `doChange` nor `undoChange` touches a cell's attached node or
its adjacency lists. -/
theorem doChange_cellFields (minW : ℤ) (ch : Change) (st : Layout) (i : ℕ) :
    cellFieldsEq ((doChange minW ch st).cellAt i) (st.cellAt i) := by
  simp only [doChange]
  refine cellFieldsEq_trans (modifyCell_cellFields _ _ _ ?_ i) ?_
  · intro c; exact ⟨rfl, rfl, rfl⟩
  refine cellFieldsEq_trans (modifyCell_cellFields _ _ _ ?_ i) ?_
  · intro c; exact ⟨rfl, rfl, rfl⟩
  exact cellFieldsEq_refl _

theorem undoChange_cellFields (ch : Change) (st : Layout) (i : ℕ) :
    cellFieldsEq ((undoChange ch st).cellAt i) (st.cellAt i) := by
  simp only [undoChange]
  refine cellFieldsEq_trans (modifyCell_cellFields _ _ _ ?_ i) ?_
  · intro c; exact ⟨rfl, rfl, rfl⟩
  refine cellFieldsEq_trans (modifyCell_cellFields _ _ _ ?_ i) ?_
  · intro c; exact ⟨rfl, rfl, rfl⟩
  exact cellFieldsEq_refl _

theorem doChange_all (minW : ℤ) (ch : Change) (st : Layout) :
    (doChange minW ch st).all = st.all := rfl

theorem undoChange_all (ch : Change) (st : Layout) :
    (undoChange ch st).all = st.all := rfl

theorem doChange_heapLen (minW : ℤ) (ch : Change) (st : Layout) :
    (doChange minW ch st).cellHeap.length = st.cellHeap.length := by
  simp [doChange, Layout.modifyCell, Layout.setSlot]

theorem undoChange_heapLen (ch : Change) (st : Layout) :
    (undoChange ch st).cellHeap.length = st.cellHeap.length := by
  simp [undoChange, Layout.modifyCell, Layout.setSlot]

theorem distance_rect_congr {a a' b b' : Cell} (ha : a.rect = a'.rect) (hb : b.rect = b'.rect) :
    distance a b = distance a' b' := by
  unfold distance
  rw [ha, hb]

/-- `calculateCost` only reads the active list, the `out` lists and the
rectangles, so it is invariant under any state change preserving those. -/
theorem calculateCost_congr (st st' : Layout) (hall : st'.all = st.all)
    (hc : ∀ i, (st'.cellAt i).rect = (st.cellAt i).rect ∧ (st'.cellAt i).out = (st.cellAt i).out) :
    calculateCost st' = calculateCost st := by
  unfold calculateCost
  rw [hall]
  refine congrArg List.sum (List.map_congr_left ?_)
  intro a _
  unfold outCost connectionCost
  rw [(hc a).2]
  refine congrArg List.sum (List.map_congr_left ?_)
  intro b _
  exact distance_rect_congr (hc a).1 (hc b).1

theorem rowRectX_setSlot (st : Layout) (r i cid q : ℕ) :
    ((st.setSlot r i cid).rows[q]?.getD default).rectX = (st.rows[q]?.getD default).rectX := by
  have h := (rowRect_setSlot st r i cid q).1
  simpa [List.getD_eq_getElem?_getD] using h

theorem rowRectY_setSlot (st : Layout) (r i cid q : ℕ) :
    ((st.setSlot r i cid).rows[q]?.getD default).rectY = (st.rows[q]?.getD default).rectY := by
  have h := (rowRect_setSlot st r i cid q).2
  simpa [List.getD_eq_getElem?_getD] using h

/-- The heap right after `doChange`: the source cell sits at the target
slot's pitch position (and conversely), with the prior rectangle stashed;
every other cell is untouched. -/
theorem doChange_cellAt (minW : ℤ) (st : Layout) (ch : Change)
    (h7 : ch.sourceCell ≠ ch.targetCell)
    (h8 : ch.sourceCell < st.cellHeap.length)
    (h9 : ch.targetCell < st.cellHeap.length) (k : ℕ) :
    (doChange minW ch st).cellAt k =
      if k = ch.sourceCell then
        { st.cellAt ch.sourceCell with
          stash := (st.cellAt ch.sourceCell).rect
          rect := { (st.cellAt ch.sourceCell).rect with
                    x := (st.rows.getD ch.targetRow default).rectX + (ch.targetIndex : ℤ) * minW
                    y := (st.rows.getD ch.targetRow default).rectY } }
      else if k = ch.targetCell then
        { st.cellAt ch.targetCell with
          stash := (st.cellAt ch.targetCell).rect
          rect := { (st.cellAt ch.targetCell).rect with
                    x := (st.rows.getD ch.sourceRow default).rectX + (ch.sourceIndex : ℤ) * minW
                    y := (st.rows.getD ch.sourceRow default).rectY } }
      else st.cellAt k := by
  simp only [doChange]
  simp only [cellAt_modifyCell, cellAt_setSlot, heapLen_setSlot, heapLen_modifyCell]
  by_cases hk1 : k = ch.sourceCell
  · subst hk1
    simp [h8, h9, h7, Ne.symm h7, rowRectX_setSlot, rowRectY_setSlot]
  · by_cases hk2 : k = ch.targetCell
    · subst hk2
      simp [h8, h9, hk1, Ne.symm h7, rowRectX_setSlot, rowRectY_setSlot]
    · simp [hk1, hk2]

/-- The heap after a swap and its immediate revert: both touched cells get
their original rectangle back (only the stash is left holding a copy of
it), and every other cell is untouched. -/
theorem undo_do_cellAt (minW : ℤ) (st : Layout) (ch : Change)
    (h7 : ch.sourceCell ≠ ch.targetCell)
    (h8 : ch.sourceCell < st.cellHeap.length)
    (h9 : ch.targetCell < st.cellHeap.length) (i : ℕ) :
    (undoChange ch (doChange minW ch st)).cellAt i =
      if i = ch.sourceCell then
        { st.cellAt ch.sourceCell with stash := (st.cellAt ch.sourceCell).rect }
      else if i = ch.targetCell then
        { st.cellAt ch.targetCell with stash := (st.cellAt ch.targetCell).rect }
      else st.cellAt i := by
  have hlen : (doChange minW ch st).cellHeap.length = st.cellHeap.length :=
    doChange_heapLen minW ch st
  simp only [undoChange]
  simp only [cellAt_modifyCell, cellAt_setSlot, heapLen_setSlot, heapLen_modifyCell, hlen]
  by_cases hk1 : i = ch.sourceCell
  · subst hk1
    simp [h8, h9, h7, Ne.symm h7, doChange_cellAt minW st ch h7 h8 h9]
  · by_cases hk2 : i = ch.targetCell
    · subst hk2
      simp [h8, h9, hk1, Ne.symm h7, doChange_cellAt minW st ch h7 h8 h9]
    · simp [hk1, hk2, doChange_cellAt minW st ch h7 h8 h9]

/-- The pure effect of `setSlot` on the row list. -/
def rowSet (r i cid : ℕ) (R : List Row) : List Row :=
  R.set r
    (let row := R.getD r default
     { row with cells := row.cells.set i cid })

theorem rows_setSlot (st : Layout) (r i cid : ℕ) :
    (st.setSlot r i cid).rows = rowSet r i cid st.rows := rfl

theorem set2_restore (C : List ℕ) (i x y : ℕ) (hi : i < C.length) (hx : C.getD i 0 = x) :
    (C.set i y).set i x = C := by
  rw [List.set_set, ← hx, set_getD_self _ _ _ hi]

theorem getElem?_of_getD {α : Type _} (l : List α) (i : ℕ) (d x : α) (hi : i < l.length)
    (hx : l.getD i d = x) : l[i]? = some x := by
  rw [← hx]
  simp [List.getD_eq_getElem?_getD, List.getElem?_eq_getElem hi]

theorem set4_restore (C : List ℕ) (sI tI sc tc : ℕ)
    (hsI : sI < C.length) (htI : tI < C.length)
    (h5 : C.getD sI 0 = sc) (h6 : C.getD tI 0 = tc) (_hne : sI ≠ tI) :
    (((C.set sI tc).set tI sc).set sI sc).set tI tc = C := by
  apply List.ext_getElem?
  intro q
  simp only [List.getElem?_set, List.length_set]
  by_cases hq1 : tI = q
  · subst hq1
    simp [htI, getElem?_of_getD C tI 0 tc htI h6]
  · by_cases hq2 : sI = q
    · subst hq2
      simp [hsI, hq1, getElem?_of_getD C sI 0 sc hsI h5]
    · simp [hq1, hq2]

theorem rowSet_length (r i cid : ℕ) (R : List Row) : (rowSet r i cid R).length = R.length := by
  unfold rowSet
  simp

theorem rowSet_getD_self (r i cid : ℕ) (R : List Row) (h : r < R.length) :
    (rowSet r i cid R).getD r default =
      { R.getD r default with cells := (R.getD r default).cells.set i cid } := by
  unfold rowSet
  exact getD_set_self _ _ _ _ h

theorem rowSet_getD_ne (r i cid : ℕ) (R : List Row) {q : ℕ} (h : r ≠ q) :
    (rowSet r i cid R).getD q default = R.getD q default := by
  unfold rowSet
  exact getD_set_ne _ _ _ h

theorem rowSet_getElem?_self (r i cid : ℕ) (R : List Row) (h : r < R.length) :
    (rowSet r i cid R)[r]? =
      some { R.getD r default with cells := (R.getD r default).cells.set i cid } := by
  unfold rowSet
  rw [List.getElem?_set]
  simp [h]

theorem rowSet_getElem?_ne (r i cid : ℕ) (R : List Row) {q : ℕ} (h : r ≠ q) :
    (rowSet r i cid R)[q]? = R[q]? := by
  unfold rowSet
  rw [List.getElem?_set]
  simp [h]

/-- Applying a planned swap and immediately reverting it restores the
complete row structure. -/
theorem rows_restore (R : List Row) (sR tR sI tI sc tc : ℕ)
    (h1 : sR < R.length) (h2 : tR < R.length)
    (h3 : sI < (R.getD sR default).cells.length)
    (h4 : tI < (R.getD tR default).cells.length)
    (h5 : (R.getD sR default).cells.getD sI 0 = sc)
    (h6 : (R.getD tR default).cells.getD tI 0 = tc)
    (h7 : sc ≠ tc) :
    rowSet tR tI tc (rowSet sR sI sc (rowSet tR tI sc (rowSet sR sI tc R))) = R := by
  by_cases hrr : sR = tR
  · subst hrr
    have hii : sI ≠ tI := by
      intro hEq
      apply h7
      rw [← h5, ← h6, hEq]
    apply List.ext_getElem?
    intro q
    by_cases hq : sR = q
    · subst hq
      rw [rowSet_getElem?_self _ _ _ _ (by simp [rowSet_length]; exact h1)]
      rw [rowSet_getD_self _ _ _ _ (by simp [rowSet_length]; exact h1)]
      rw [rowSet_getD_self _ _ _ _ (by simp [rowSet_length]; exact h1)]
      rw [rowSet_getD_self _ _ _ _ h1]
      rw [getElem?_of_getD R sR default _ h1 rfl]
      congr 1
      refine Row.ext ?_ ?_ ?_ <;> simp
      exact set4_restore _ sI tI sc tc
        (by simpa [List.getD_eq_getElem?_getD] using h3)
        (by simpa [List.getD_eq_getElem?_getD] using h4)
        (by simpa [List.getD_eq_getElem?_getD] using h5)
        (by simpa [List.getD_eq_getElem?_getD] using h6) hii
    · rw [rowSet_getElem?_ne _ _ _ _ hq, rowSet_getElem?_ne _ _ _ _ hq,
        rowSet_getElem?_ne _ _ _ _ hq, rowSet_getElem?_ne _ _ _ _ hq]
  · have hrr' : tR ≠ sR := fun hEq => hrr hEq.symm
    apply List.ext_getElem?
    intro q
    by_cases hq1 : tR = q
    · subst hq1
      rw [rowSet_getElem?_self _ _ _ _ (by simp [rowSet_length]; exact h2)]
      rw [rowSet_getD_ne _ _ _ _ hrr]
      rw [rowSet_getD_self _ _ _ _ (by simp [rowSet_length]; exact h2)]
      rw [rowSet_getD_ne _ _ _ _ hrr]
      rw [getElem?_of_getD R tR default _ h2 rfl]
      congr 1
      refine Row.ext ?_ ?_ ?_ <;> simp
      have h6' : (R[tR]?.getD default).cells.getD tI 0 = tc := by
        simpa [List.getD_eq_getElem?_getD] using h6
      rw [← h6']
      exact set_getD_self _ _ _ (by simpa [List.getD_eq_getElem?_getD] using h4)
    · by_cases hq2 : sR = q
      · subst hq2
        rw [rowSet_getElem?_ne _ _ _ _ hq1]
        rw [rowSet_getElem?_self _ _ _ _ (by simp [rowSet_length]; exact h1)]
        rw [rowSet_getD_ne _ _ _ _ hq1]
        rw [rowSet_getD_self _ _ _ _ h1]
        rw [getElem?_of_getD R sR default _ h1 rfl]
        congr 1
        refine Row.ext ?_ ?_ ?_ <;> simp
        have h5' : (R[sR]?.getD default).cells.getD sI 0 = sc := by
          simpa [List.getD_eq_getElem?_getD] using h5
        rw [← h5']
        exact set_getD_self _ _ _ (by simpa [List.getD_eq_getElem?_getD] using h3)
      · rw [rowSet_getElem?_ne _ _ _ _ hq1, rowSet_getElem?_ne _ _ _ _ hq2,
          rowSet_getElem?_ne _ _ _ _ hq1, rowSet_getElem?_ne _ _ _ _ hq2]

theorem undo_do_rows (minW : ℤ) (st : Layout) (ch : Change) (h : planned st ch) :
    (undoChange ch (doChange minW ch st)).rows = st.rows := by
  obtain ⟨h1, h2, h3, h4, h5, h6, h7, _, _⟩ := h
  have e : (undoChange ch (doChange minW ch st)).rows =
      rowSet ch.targetRow ch.targetIndex ch.targetCell
        (rowSet ch.sourceRow ch.sourceIndex ch.sourceCell
          (rowSet ch.targetRow ch.targetIndex ch.sourceCell
            (rowSet ch.sourceRow ch.sourceIndex ch.targetCell st.rows))) := rfl
  rw [e]
  exact rows_restore st.rows ch.sourceRow ch.targetRow ch.sourceIndex ch.targetIndex
    ch.sourceCell ch.targetCell h1 h2 h3 h4 h5 h6 h7

/-- C3: applying `doChange` and then immediately `undoChange` on the same
planned change restores the pre-move slot-to-cell assignments of every row,
every cell's rectangle, and hence the total layout cost. -/
theorem do_then_undo_restores (minW : ℤ) (st : Layout) (ch : Change) (h : planned st ch) :
    (undoChange ch (doChange minW ch st)).rows = st.rows ∧
    (∀ i, ((undoChange ch (doChange minW ch st)).cellAt i).rect = (st.cellAt i).rect) ∧
    calculateCost (undoChange ch (doChange minW ch st)) = calculateCost st := by
  have h7 := h.2.2.2.2.2.2.1
  have h8 := h.2.2.2.2.2.2.2.1
  have h9 := h.2.2.2.2.2.2.2.2
  have hrect : ∀ i, ((undoChange ch (doChange minW ch st)).cellAt i).rect = (st.cellAt i).rect := by
    intro i
    rw [undo_do_cellAt minW st ch h7 h8 h9 i]
    split_ifs with hc1 hc2
    · subst hc1; rfl
    · subst hc2; rfl
    · rfl
  have hfields : ∀ i, cellFieldsEq ((undoChange ch (doChange minW ch st)).cellAt i) (st.cellAt i) :=
    fun i => cellFieldsEq_trans (undoChange_cellFields ch (doChange minW ch st) i)
      (doChange_cellFields minW ch st i)
  refine ⟨undo_do_rows minW st ch h, hrect, ?_⟩
  exact calculateCost_congr st (undoChange ch (doChange minW ch st))
    (by rw [undoChange_all, doChange_all]) (fun i => ⟨hrect i, (hfields i).2.2⟩)

/-- A concrete two-cell layout used as a witness input. -/
def stEx : Layout :=
  { minEdgeLength := 0
    all := [0, 1]
    rows := [⟨0, 0, [0, 1]⟩]
    cellHeap :=
      [⟨[], [1], some 0, ⟨0, 0, 2, 2⟩, ⟨0, 0, 0, 0⟩⟩,
       ⟨[0], [], some 1, ⟨2, 0, 2, 2⟩, ⟨0, 0, 0, 0⟩⟩] }

/-- A planned swap of the two cells of `stEx`. -/
def chEx : Change := ⟨0, 1, 0, 0, 0, 1⟩

theorem do_then_undo_restores_witness :
    planned stEx chEx ∧
    ((undoChange chEx (doChange 2 chEx stEx)).rows = stEx.rows ∧
      (∀ i, ((undoChange chEx (doChange 2 chEx stEx)).cellAt i).rect = (stEx.cellAt i).rect) ∧
      calculateCost (undoChange chEx (doChange 2 chEx stEx)) = calculateCost stEx) :=
  ⟨by decide, do_then_undo_restores 2 stEx chEx (by decide)⟩

/-- Value of a C++ `double` expression as far as this program needs it:
either a finite rational or one of the IEEE-754 special values produced by
dividing by zero (`0/0 = NaN`, `x/0 = ±inf`). -/
inductive DVal where
  | nan : DVal
  | pinf : DVal
  | ninf : DVal
  | fin : ℚ → DVal
deriving DecidableEq

/-- IEEE-754 division used for the `gain` quotient. -/
def ddiv (a b : ℚ) : DVal :=
  if b = 0 then (if a = 0 then .nan else if 0 < a then .pinf else .ninf)
  else .fin (a / b)

/-- IEEE-754 `<` against a finite constant: false on NaN (any comparison
with NaN is false) and on +inf, true on −inf. -/
def dlt (g : DVal) (c : ℚ) : Bool :=
  match g with
  | .nan => false
  | .pinf => false
  | .ninf => true
  | .fin q => decide (q < c)

/-- The batch-end quotient `gain = (cost - sliceCost) / sliceCost`
(`layout_optimizer.cpp` line 165). -/
def gainOf (cost sliceCost : ℚ) : DVal := ddiv (cost - sliceCost) sliceCost

/-- The stuck-counter update (`layout_optimizer.cpp` lines 168-175):
`if (gain < 0.1) stuck++; else stuck = 0;`. -/
def stuckUpdate (g : DVal) (stuck : ℕ) : ℕ :=
  if dlt g (1 / 10) then stuck + 1 else 0

/-- One iteration of the proposal loop (`layout_optimizer.cpp` 129-162).
The state is (layout, running cost, draw counter).  The C++ code reseeds a
fresh `std::random_device`-backed engine for every draw, so proposals and
Metropolis draws are modeled as arbitrary streams: `prop k` is the `k`-th
planned change and `acc k` the outcome of `r < exp(-delta / t)` for the
`k`-th proposal.  All running-cost values are sums and differences of the
integer distances, hence exactly representable; `ℚ` models them exactly. -/
def batchStep (minW : ℤ) (prop : ℕ → Change) (acc : ℕ → Bool)
    (s : Layout × ℚ × ℕ) : Layout × ℚ × ℕ :=
  let st := s.1
  let cost := s.2.1
  let k := s.2.2
  let ch := prop k
  let nc1 : ℚ := cost - (compoundCost st (st.cellAt ch.sourceCell) : ℤ)
    - (compoundCost st (st.cellAt ch.targetCell) : ℤ)
  let st2 := doChange minW ch st
  let newCost : ℚ := nc1 + (compoundCost st2 (st2.cellAt ch.sourceCell) : ℤ)
    + (compoundCost st2 (st2.cellAt ch.targetCell) : ℤ)
  if newCost - cost ≤ 0 then (st2, newCost, k + 1)
  else if acc k then (st2, newCost, k + 1)
  else (undoChange ch st2, cost, k + 1)

/-- The `for (i < all.size() * 100)` batch loop, iterated `n` times. -/
def runBatch (minW : ℤ) (prop : ℕ → Change) (acc : ℕ → Bool) :
    ℕ → Layout × ℚ × ℕ → Layout × ℚ × ℕ
  | 0, s => s
  | n + 1, s => runBatch minW prop acc n (batchStep minW prop acc s)

/-- The inner `do { batch } while (stuck < 5)` loop
(`layout_optimizer.cpp` 123-177), with explicit fuel: `none` means the fuel
ran out with the loop still running. -/
def innerLoop (minW : ℤ) (prop : ℕ → Change) (acc : ℕ → Bool) :
    ℕ → Layout × ℚ × ℕ → ℕ → Option (Layout × ℚ × ℕ)
  | 0, _, _ => none
  | fuel + 1, s, stuck =>
    let s' := runBatch minW prop acc (s.1.all.length * 100) s
    let stuck' := stuckUpdate (gainOf s'.2.1 s.2.1) stuck
    if stuck' < 5 then innerLoop minW prop acc fuel s' stuck' else some s'

/-- The cooling loop `while (t > 0.05) { ...; t *= 0.5; }`
(`layout_optimizer.cpp` 119-180), with explicit fuel. -/
def coolLoop (minW : ℤ) (prop : ℕ → Change) (acc : ℕ → Bool) (innerFuel : ℕ) :
    ℕ → ℚ → Layout × ℚ × ℕ → Option (Layout × ℚ × ℕ)
  | 0, _, _ => none
  | fuel + 1, t, s =>
    if 1 / 20 < t then
      match innerLoop minW prop acc innerFuel s 0 with
      | none => none
      | some s' => coolLoop minW prop acc innerFuel fuel (t * (1 / 2)) s'
    else some s

/-- Mirror of `LayoutOptimizer::optimize` (`layout_optimizer.cpp` 100-184):
early return below 2 active cells, otherwise anneal starting from
`cost = calculateCost()` and `t = 200`.  `none` means the fuel ran out with
the loops still running. -/
def optimize (minW : ℤ) (prop : ℕ → Change) (acc : ℕ → Bool)
    (innerFuel outerFuel : ℕ) (st : Layout) : Option Layout :=
  if st.all.length < 2 then some st
  else
    match coolLoop minW prop acc innerFuel outerFuel 200 (st, (calculateCost st : ℤ), 0) with
    | none => none
    | some s => some s.1

/-- A layout with no edges at all: every cell has empty adjacency. -/
def noEdges (st : Layout) : Prop := ∀ c ∈ st.cellHeap, c.inn = [] ∧ c.out = []

instance (st : Layout) : Decidable (noEdges st) := by
  unfold noEdges
  exact inferInstance

theorem noEdges_cellAt (st : Layout) (h : noEdges st) (i : ℕ) :
    (st.cellAt i).inn = [] ∧ (st.cellAt i).out = [] := by
  by_cases hi : i < st.cellHeap.length
  · have he : st.cellAt i = st.cellHeap[i] := by
      simp [Layout.cellAt, List.getD_eq_getElem?_getD, List.getElem?_eq_getElem hi]
    rw [he]
    exact h _ (List.getElem_mem hi)
  · have he : st.cellAt i = default := by
      simp [Layout.cellAt, List.getD_eq_getElem?_getD, List.getElem?_eq_none (Nat.le_of_not_lt hi)]
    rw [he]
    exact ⟨rfl, rfl⟩

theorem noEdges_congr (st st' : Layout)
    (hf : ∀ i, cellFieldsEq (st'.cellAt i) (st.cellAt i)) (h : noEdges st) : noEdges st' := by
  intro c hc
  obtain ⟨i, hi, rfl⟩ := List.mem_iff_getElem.mp hc
  have hcell : st'.cellAt i = st'.cellHeap[i] := by
    simp [Layout.cellAt, List.getD_eq_getElem?_getD, List.getElem?_eq_getElem hi]
  have h1 := (hf i).2.1
  have h2 := (hf i).2.2
  rw [hcell] at h1 h2
  exact ⟨h1.trans (noEdges_cellAt st h i).1, h2.trans (noEdges_cellAt st h i).2⟩

theorem noEdges_doChange (minW : ℤ) (ch : Change) (st : Layout) (h : noEdges st) :
    noEdges (doChange minW ch st) :=
  noEdges_congr st _ (doChange_cellFields minW ch st) h

theorem compoundCost_of_noEdges (st : Layout) (h : noEdges st) (i : ℕ) :
    compoundCost st (st.cellAt i) = 0 := by
  unfold compoundCost connectionCost
  rw [(noEdges_cellAt st h i).1, (noEdges_cellAt st h i).2]
  simp

theorem calculateCost_of_noEdges (st : Layout) (h : noEdges st) : calculateCost st = 0 := by
  unfold calculateCost
  apply List.sum_eq_zero
  intro x hx
  rw [List.mem_map] at hx
  obtain ⟨i, _, rfl⟩ := hx
  unfold outCost connectionCost
  rw [(noEdges_cellAt st h i).2]
  rfl

theorem batchStep_of_noEdges (minW : ℤ) (prop : ℕ → Change) (acc : ℕ → Bool)
    (s : Layout × ℚ × ℕ) (h : noEdges s.1) :
    batchStep minW prop acc s = (doChange minW (prop s.2.2) s.1, s.2.1, s.2.2 + 1) := by
  unfold batchStep
  simp only []
  rw [compoundCost_of_noEdges s.1 h, compoundCost_of_noEdges s.1 h,
    compoundCost_of_noEdges _ (noEdges_doChange minW (prop s.2.2) s.1 h),
    compoundCost_of_noEdges _ (noEdges_doChange minW (prop s.2.2) s.1 h)]
  simp

theorem runBatch_of_noEdges (minW : ℤ) (prop : ℕ → Change) (acc : ℕ → Bool) (n : ℕ)
    (s : Layout × ℚ × ℕ) (h : noEdges s.1) :
    noEdges (runBatch minW prop acc n s).1 ∧ (runBatch minW prop acc n s).2.1 = s.2.1 := by
  induction n generalizing s with
  | zero => exact ⟨h, rfl⟩
  | succ n ih =>
    have hs := batchStep_of_noEdges minW prop acc s h
    have hnext : noEdges (batchStep minW prop acc s).1 := by
      rw [hs]
      exact noEdges_doChange minW _ s.1 h
    have := ih (batchStep minW prop acc s) hnext
    refine ⟨this.1, this.2.trans ?_⟩
    rw [hs]

/-- With all edge lists empty every move has `delta = 0` and is accepted
with the cost unchanged; at zero cost the batch gain is `0 / 0 = NaN`,
`NaN < 0.1` is false, and the stuck counter is reset to 0 at the end of
every batch, so the do-while never exits. -/
theorem innerLoop_of_noEdges (minW : ℤ) (prop : ℕ → Change) (acc : ℕ → Bool) (fuel : ℕ)
    (s : Layout × ℚ × ℕ) (stuck : ℕ) (h : noEdges s.1) (hc : s.2.1 = 0) :
    innerLoop minW prop acc fuel s stuck = none := by
  induction fuel generalizing s stuck with
  | zero => rfl
  | succ fuel ih =>
    obtain ⟨hne, hcost⟩ := runBatch_of_noEdges minW prop acc (s.1.all.length * 100) s h
    unfold innerLoop
    simp only []
    rw [hcost, hc]
    have hstuck : stuckUpdate (gainOf 0 0) stuck = 0 := by
      unfold stuckUpdate gainOf ddiv dlt
      norm_num
    rw [hstuck]
    rw [if_pos (by norm_num)]
    exact ih _ 0 hne (hcost.trans hc)

/-- C1 (code bug): on an initialized layout with at least 2 active cells
and zero total cost (no edges), `optimize()` does not terminate.  The claim
says the stuck counter still reaches 5; in fact each batch leaves cost and
batch-start cost at 0, so `gain = 0/0` is NaN, `NaN < 0.1` is false, the
`else` branch resets `stuck` to 0, and the inner do-while loops forever:
for every fuel bound the loop is still running (`none`). -/
theorem optimize_diverges_on_zero_cost (minW : ℤ) (prop : ℕ → Change) (acc : ℕ → Bool)
    (innerFuel outerFuel : ℕ) (st : Layout) (h : noEdges st) (h2 : 2 ≤ st.all.length) :
    optimize minW prop acc innerFuel outerFuel st = none := by
  unfold optimize
  rw [if_neg (by omega)]
  cases outerFuel with
  | zero => rfl
  | succ n =>
    unfold coolLoop
    rw [if_pos (by norm_num : (1 : ℚ) / 20 < 200)]
    rw [innerLoop_of_noEdges minW prop acc innerFuel _ 0 h
      (by simp [calculateCost_of_noEdges st h])]

/-- A two-cell layout with no edges (two isolated nodes). -/
def stIso : Layout :=
  { minEdgeLength := 0
    all := [0, 1]
    rows := [⟨0, 0, [0, 1]⟩]
    cellHeap :=
      [⟨[], [], some 0, ⟨0, 0, 2, 2⟩, ⟨0, 0, 0, 0⟩⟩,
       ⟨[], [], some 1, ⟨2, 0, 2, 2⟩, ⟨0, 0, 0, 0⟩⟩] }

theorem optimize_diverges_on_zero_cost_witness :
    noEdges stIso ∧ 2 ≤ stIso.all.length ∧
      optimize 2 (fun _ => chEx) (fun _ => false) 7 9 stIso = none :=
  ⟨by decide, by decide,
    optimize_diverges_on_zero_cost 2 (fun _ => chEx) (fun _ => false) 7 9 stIso
      (by decide) (by decide)⟩

/-- C8: with fewer than 2 active cells `optimize()` returns immediately,
leaving the entire layout state untouched. -/
theorem optimize_noop_below_two_cells (minW : ℤ) (prop : ℕ → Change) (acc : ℕ → Bool)
    (innerFuel outerFuel : ℕ) (st : Layout) (h : st.all.length < 2) :
    optimize minW prop acc innerFuel outerFuel st = some st := by
  unfold optimize
  rw [if_pos h]

/-- A single-active-cell layout. -/
def stOne : Layout :=
  { minEdgeLength := 0
    all := [0]
    rows := [⟨0, 0, [0, 1]⟩]
    cellHeap :=
      [⟨[], [], some 0, ⟨0, 0, 2, 2⟩, ⟨0, 0, 0, 0⟩⟩,
       ⟨[], [], none, ⟨2, 0, 2, 2⟩, ⟨0, 0, 0, 0⟩⟩] }

theorem optimize_noop_below_two_cells_witness :
    stOne.all.length < 2 ∧ optimize 2 (fun _ => chEx) (fun _ => false) 3 3 stOne = some stOne :=
  ⟨by decide, optimize_noop_below_two_cells 2 (fun _ => chEx) (fun _ => false) 3 3 stOne (by decide)⟩

/-- C2 counterexample: the claim says the stuck counter is incremented
exactly when `gain ≥ −0.1` and reset otherwise.  A batch improving cost
from 10 to 5 has `gain = −1/2 < −0.1`, so per the claim the counter must be
reset; the code (`if (gain < 0.1) stuck++`) increments it.  A batch
worsening cost from 10 to 20 has `gain = 1 ≥ −0.1`, so per the claim the
counter must be incremented; the code resets it to 0. -/
theorem stuck_update_direction_cex :
    gainOf 5 10 = DVal.fin (-(1 / 2) : ℚ) ∧ ((-(1 / 2) : ℚ) < -(1 / 10)) ∧
      stuckUpdate (gainOf 5 10) 0 = 1 ∧
      gainOf 20 10 = DVal.fin 1 ∧ ((-(1 / 10) : ℚ) ≤ 1) ∧ stuckUpdate (gainOf 20 10) 3 = 0 := by
  have hg1 : gainOf 5 10 = DVal.fin (-(1 / 2) : ℚ) := by
    unfold gainOf ddiv
    rw [if_neg (by norm_num)]
    norm_num
  have hg2 : gainOf 20 10 = DVal.fin 1 := by
    unfold gainOf ddiv
    rw [if_neg (by norm_num)]
    norm_num
  refine ⟨hg1, by norm_num, ?_, hg2, by norm_num, ?_⟩
  · rw [hg1]
    unfold stuckUpdate dlt
    rw [if_pos (by norm_num)]
  · rw [hg2]
    unfold stuckUpdate dlt
    rw [if_neg (by norm_num)]

/-- C2 amended: at the end of every batch with positive batch-start cost,
the stuck counter is incremented exactly when `gain < 0.1` (i.e. the batch
worsened cost by less than 10% of the batch-start cost, which includes
every improvement), and is reset to 0 exactly when `gain ≥ 0.1`. -/
theorem stuck_update_increments_iff (cost sliceCost : ℚ) (stuck : ℕ) (h : 0 < sliceCost) :
    (stuckUpdate (gainOf cost sliceCost) stuck = stuck + 1 ↔
      (cost - sliceCost) / sliceCost < 1 / 10) ∧
    (stuckUpdate (gainOf cost sliceCost) stuck = 0 ↔
      ¬((cost - sliceCost) / sliceCost < 1 / 10)) := by
  unfold stuckUpdate gainOf ddiv dlt
  rw [if_neg (ne_of_gt h)]
  by_cases hc : (cost - sliceCost) / sliceCost < 1 / 10 <;> simp [hc]

theorem stuck_update_increments_iff_witness :
    (0 : ℚ) < 10 ∧
      ((stuckUpdate (gainOf 5 10) 0 = 0 + 1 ↔ ((5 : ℚ) - 10) / 10 < 1 / 10) ∧
        (stuckUpdate (gainOf 5 10) 0 = 0 ↔ ¬(((5 : ℚ) - 10) / 10 < 1 / 10))) :=
  ⟨by norm_num, stuck_update_increments_iff 5 10 0 (by norm_num)⟩

/-- The data `initialize` reads from a node: its stable index and its size
(`node->index()`, `node->size()`). -/
structure NodeData where
  idx : ℤ
  w : ℤ
  h : ℤ
deriving DecidableEq

instance : Inhabited NodeData := ⟨⟨0, 0, 0⟩⟩

/-- The `area` accumulation of `LayoutOptimizer::initialize`
(`layout_optimizer.cpp` 35-38). -/
def footprintArea (nodes : List NodeData) (e : ℚ) : ℚ :=
  (nodes.map (fun n => ((n.w : ℚ) + e) * ((n.h : ℚ) + e))).sum

/-- C++ conversion of a `double` to an integer type: truncation toward
zero. -/
def qtrunc (q : ℚ) : ℤ := if 0 ≤ q then Rat.floor q else -Rat.floor (-q)

/-- `rows = static_cast<size_t>(height / (MIN_HEIGHT + minEdgeLength)) + 1`
(`layout_optimizer.cpp` line 43). -/
def rowsOf (height : ℚ) (minH : ℤ) (e : ℚ) : ℕ :=
  (qtrunc (height / ((minH : ℚ) + e))).toNat + 1

/-- `cols = static_cast<size_t>(width / (MIN_WIDTH + minEdgeLength)) + 1`
(`layout_optimizer.cpp` line 44). -/
def colsOf (width : ℚ) (minW : ℤ) (e : ℚ) : ℕ :=
  (qtrunc (width / ((minW : ℚ) + e))).toNat + 1

/-- State threaded through the cell-construction loops: the not yet placed
nodes (consumed from the back), the growing cell heap, the active-cell list
`all`, and the `nodesToCells` map (most recent binding first, mirroring
`std::map` assignment). -/
structure BuildSt where
  nodes : List NodeData
  heap : List Cell
  all : List ℕ
  nodesToCells : List (ℤ × ℕ)
deriving DecidableEq

/-- One slot of the cell-construction loop (`layout_optimizer.cpp` 57-73):
a fresh cell at the slot's pitch position; if nodes remain, the last one is
attached (`nodes.back()` / `pop_back`), recorded in `all` and in the map. -/
def buildSlot (minW minH rowX rowY : ℤ) (i : ℕ) (s : BuildSt) : BuildSt × ℕ :=
  let cid := s.heap.length
  let r : Rect := { x := rowX + (i : ℤ) * minW, y := rowY, w := minW, h := minH }
  match s.nodes.getLast? with
  | some nd =>
      ({ nodes := s.nodes.dropLast
         heap := s.heap ++ [{ inn := [], out := [], node := some nd.idx, rect := r, stash := ⟨0, 0, 0, 0⟩ }]
         all := s.all ++ [cid]
         nodesToCells := (nd.idx, cid) :: s.nodesToCells }, cid)
  | none =>
      ({ s with
         heap := s.heap ++ [{ inn := [], out := [], node := none, rect := r, stash := ⟨0, 0, 0, 0⟩ }] }, cid)

/-- The inner `for (i < cols)` loop (`layout_optimizer.cpp` 57-73),
returning the updated state and the row's cell-id list. -/
def buildRowAux (minW minH rowX rowY : ℤ) : ℕ → ℕ → BuildSt → List ℕ → BuildSt × List ℕ
  | _, 0, s, acc => (s, acc)
  | i, cnt + 1, s, acc =>
      let p := buildSlot minW minH rowX rowY i s
      buildRowAux minW minH rowX rowY (i + 1) cnt p.1 (acc ++ [p.2])

/-- The outer `for (j < rows)` loop (`layout_optimizer.cpp` 52-75). -/
def buildRows (minW minH : ℤ) (cols : ℕ) : ℕ → ℕ → BuildSt → List Row → BuildSt × List Row
  | _, 0, s, acc => (s, acc)
  | j, cnt + 1, s, acc =>
      let rowX : ℤ := 0
      let rowY : ℤ := (j : ℤ) * minH
      let p := buildRowAux minW minH rowX rowY 0 cols s []
      buildRows minW minH cols (j + 1) cnt p.1 (acc ++ [⟨rowX, rowY, p.2⟩])

/-- The whole lattice construction (`layout_optimizer.cpp` 48-75), given
the already derived lattice dimensions. -/
def buildLayout (minW minH : ℤ) (e : ℚ) (rows cols : ℕ) (nodes : List NodeData) :
    Layout × List (ℤ × ℕ) :=
  let p := buildRows minW minH cols 0 rows { nodes := nodes, heap := [], all := [], nodesToCells := [] } []
  ({ minEdgeLength := e, all := p.1.all, rows := p.2, cellHeap := p.1.heap }, p.1.nodesToCells)

/-- Lookup in the `nodesToCells` map. -/
def lookupCell (m : List (ℤ × ℕ)) (k : ℤ) : Option ℕ :=
  match m.find? (fun p => p.1 == k) with
  | some p => some p.2
  | none => none

/-- The edge wiring loop (`layout_optimizer.cpp` 79-87).  On a node index
with no recorded cell, `nodesToCells[...]` yields a null pointer and
`assert(cell)` aborts: modeled as `Except.error`.  Otherwise the target
cell is appended to the source's `out` list and the source to the target's
`in` list. -/
def wireEdges (m : List (ℤ × ℕ)) : List (ℤ × ℤ) → Layout → Except String Layout
  | [], st => .ok st
  | e :: rest, st =>
      match lookupCell m e.1, lookupCell m e.2 with
      | some c0, some c1 =>
          let st1 := st.modifyCell c0 (fun c => { c with out := c.out ++ [c1] })
          let st2 := st1.modifyCell c1 (fun c => { c with inn := c.inn ++ [c0] })
          wireEdges m rest st2
      | _, _ => .error "assert failed: edge endpoint has no cell"

/-- Mirror of `LayoutOptimizer::initialize` (`layout_optimizer.cpp` 31-88),
with the lattice height and width passed in: the C++ code computes
`height = sqrt(area / aspectRatio)` (line 40) and `width = area / height`
(line 41) in floating point; `sqrt` has no exact rational counterpart, so
theorems take `height` and `width` abstractly together with the algebraic
facts those two lines guarantee (`0 ≤ height` and
`height * width = area`). -/
def initLayoutWith (minW minH : ℤ) (e height width : ℚ) (nodes : List NodeData)
    (edges : List (ℤ × ℤ)) : Except String Layout :=
  let rows := rowsOf height minH e
  let cols := colsOf width minW e
  let p := buildLayout minW minH e rows cols nodes
  wireEdges p.2 edges p.1

/-- One cell of the extraction pass (`layout_optimizer.cpp` 253-260), in
source order: `rect.x += i * minEdgeLength` (an `int += double`, truncated
toward zero), then `maxHeight = fmax(maxHeight, rect.y + rect.h)` — note:
read BEFORE `y` gets its spacing — then `rect.y += j * minEdgeLength`, then
`maxWidth = fmax(maxWidth, rect.x + rect.w)` with the already adjusted
`x`. -/
def extractCellPass (e : ℚ) (j i : ℕ) (heap : List Cell) (cid : ℕ) (mW mH : ℚ) :
    List Cell × ℚ × ℚ :=
  let c := heap.getD cid default
  let x' := qtrunc ((c.rect.x : ℚ) + (i : ℚ) * e)
  let mH' := max mH ((c.rect.y + c.rect.h : ℤ) : ℚ)
  let y' := qtrunc ((c.rect.y : ℚ) + (j : ℚ) * e)
  let mW' := max mW ((x' + c.rect.w : ℤ) : ℚ)
  (heap.set cid { c with rect := { c.rect with x := x', y := y' } }, mW', mH')

/-- The `for (i < row->cells.size())` loop of `extract`
(`layout_optimizer.cpp` 251-261); the C++ `if (cell)` null check is always
true since every slot holds a cell. -/
def extractRowPass (e : ℚ) (j : ℕ) : List ℕ → ℕ → List Cell × ℚ × ℚ → List Cell × ℚ × ℚ
  | [], _, acc => acc
  | cid :: rest, i, acc =>
      extractRowPass e j rest (i + 1) (extractCellPass e j i acc.1 cid acc.2.1 acc.2.2)

/-- The `for (j < rows.size())` loop of `extract`
(`layout_optimizer.cpp` 248-262). -/
def extractPass (e : ℚ) : List Row → ℕ → List Cell × ℚ × ℚ → List Cell × ℚ × ℚ
  | [], _, acc => acc
  | row :: rest, j, acc => extractPass e rest (j + 1) (extractRowPass e j row.cells 0 acc)

/-- The write-back phase of `extract` (`layout_optimizer.cpp` 264-270):
the list of `setLocation` calls, one `(node, x, y)` triple per active cell
in order.  `MIN_WIDTH / 2` is C++ `int` division; the subtraction of
`maxWidth / 2` happens in `double`. -/
def extractWrites (minW minH : ℤ) (st : Layout) : List (Option ℤ × ℚ × ℚ) :=
  let p := extractPass st.minEdgeLength st.rows 0 (st.cellHeap, 0, 0)
  st.all.map (fun cid =>
    let c := p.1.getD cid default
    (c.node,
     ((Int.tdiv minW 2 : ℤ) : ℚ) + (c.rect.x : ℚ) - p.2.1 / 2,
     ((Int.tdiv minH 2 : ℤ) : ℚ) + (c.rect.y : ℚ) - p.2.2 / 2))

/-- Every cell's rectangle has the fixed lattice dimensions.  Only `rect`
is constrained: `initialize` leaves every `stash` zero-initialized, and the
code reads a stash only right after `pushRect` has copied the current
rectangle into it. -/
def rectDims (minW minH : ℤ) (st : Layout) : Prop :=
  ∀ c ∈ st.cellHeap, c.rect.w = minW ∧ c.rect.h = minH

instance (minW minH : ℤ) (st : Layout) : Decidable (rectDims minW minH st) := by
  unfold rectDims
  exact inferInstance

theorem rectDims_index (minW minH : ℤ) (st : Layout) :
    rectDims minW minH st ↔
      ∀ q, q < st.cellHeap.length →
        (st.cellAt q).rect.w = minW ∧ (st.cellAt q).rect.h = minH := by
  constructor
  · intro h q hq
    have he : st.cellAt q = st.cellHeap[q] := by
      simp [Layout.cellAt, List.getD_eq_getElem?_getD, List.getElem?_eq_getElem hq]
    rw [he]
    exact h _ (List.getElem_mem hq)
  · intro h c hc
    rcases List.getElem_of_mem hc with ⟨q, hq, rfl⟩
    have he : st.cellHeap[q] = st.cellAt q := by
      simp [Layout.cellAt, List.getD_eq_getElem?_getD, List.getElem?_eq_getElem hq]
    rw [he]
    exact h q hq

theorem modifyCell_pred (P : Cell → Prop) (st : Layout) (j : ℕ) (f : Cell → Cell)
    (hf : ∀ c, P c → P (f c)) (h : ∀ c ∈ st.cellHeap, P c) :
    ∀ c ∈ (st.modifyCell j f).cellHeap, P c := by
  intro c hc
  unfold Layout.modifyCell at hc
  by_cases hj : j < st.cellHeap.length
  · rcases List.mem_or_eq_of_mem_set hc with hmem | rfl
    · exact h c hmem
    · apply hf
      apply h
      have he : st.cellHeap.getD j default = st.cellHeap[j] := by
        simp [List.getD_eq_getElem?_getD, List.getElem?_eq_getElem hj]
      rw [he]
      exact List.getElem_mem hj
  · rw [show st.cellHeap.set j (f (st.cellHeap.getD j default)) = st.cellHeap from
      List.set_eq_of_length_le (Nat.le_of_not_lt hj)] at hc
    exact h c hc

theorem rectDims_doChange (minW minH : ℤ) (ch : Change) (st : Layout)
    (h : rectDims minW minH st) : rectDims minW minH (doChange minW ch st) := by
  unfold rectDims at h ⊢
  simp only [doChange]
  refine modifyCell_pred _ _ _ _ ?_ (modifyCell_pred _ _ _ _ ?_ h)
  · intro c hc
    exact hc
  · intro c hc
    exact hc

/-- Right after `doChange`, rectangle dimensions are still uniform, and
the two touched cells additionally carry a stash with uniform dimensions
(`pushRect` copied a rectangle that had them). -/
theorem doChange_dims_stash (minW minH : ℤ) (ch : Change) (st : Layout)
    (h : rectDims minW minH st) (q : ℕ) (hq : q < st.cellHeap.length) :
    (((doChange minW ch st).cellAt q).rect.w = minW ∧
     ((doChange minW ch st).cellAt q).rect.h = minH) ∧
    (q = ch.sourceCell ∨ q = ch.targetCell →
      ((doChange minW ch st).cellAt q).stash.w = minW ∧
      ((doChange minW ch st).cellAt q).stash.h = minH) := by
  rw [rectDims_index] at h
  simp only [doChange]
  simp only [cellAt_modifyCell, cellAt_setSlot, heapLen_setSlot, heapLen_modifyCell]
  by_cases hT : ch.targetCell < st.cellHeap.length ∧ q = ch.targetCell
  · rw [if_pos hT]
    by_cases hS : ch.sourceCell < st.cellHeap.length ∧ ch.targetCell = ch.sourceCell
    · rw [if_pos hS]
      exact ⟨⟨(h _ hS.1).1, (h _ hS.1).2⟩, fun _ => ⟨(h _ hS.1).1, (h _ hS.1).2⟩⟩
    · rw [if_neg hS]
      exact ⟨⟨(h _ hT.1).1, (h _ hT.1).2⟩, fun _ => ⟨(h _ hT.1).1, (h _ hT.1).2⟩⟩
  · rw [if_neg hT]
    by_cases hS : ch.sourceCell < st.cellHeap.length ∧ q = ch.sourceCell
    · rw [if_pos hS]
      exact ⟨⟨(h _ hS.1).1, (h _ hS.1).2⟩, fun _ => ⟨(h _ hS.1).1, (h _ hS.1).2⟩⟩
    · rw [if_neg hS]
      refine ⟨h q hq, ?_⟩
      intro hor
      exfalso
      rcases hor with h' | h'
      · exact hS ⟨h' ▸ hq, h'⟩
      · exact hT ⟨h' ▸ hq, h'⟩

/-- Undoing a change that was just done keeps rectangle dimensions
uniform, for any change whatsoever: each `popRect` only reads a stash the
preceding `doChange` filled with a uniform-dimension rectangle.  This is
the only way the code ever calls `undoChange` (`layout_optimizer.cpp`
158). -/
theorem rectDims_undo_do (minW minH : ℤ) (ch : Change) (st : Layout)
    (h : rectDims minW minH st) :
    rectDims minW minH (undoChange ch (doChange minW ch st)) := by
  have hlen : (doChange minW ch st).cellHeap.length = st.cellHeap.length :=
    doChange_heapLen minW ch st
  rw [rectDims_index, undoChange_heapLen, hlen]
  intro q hq
  simp only [undoChange]
  simp only [cellAt_modifyCell, cellAt_setSlot, heapLen_setSlot, heapLen_modifyCell, hlen]
  by_cases hT : ch.targetCell < st.cellHeap.length ∧ q = ch.targetCell
  · rw [if_pos hT]
    by_cases hS : ch.sourceCell < st.cellHeap.length ∧ ch.targetCell = ch.sourceCell
    · rw [if_pos hS]
      exact (doChange_dims_stash minW minH ch st h ch.sourceCell hS.1).2 (Or.inl rfl)
    · rw [if_neg hS]
      exact (doChange_dims_stash minW minH ch st h ch.targetCell hT.1).2 (Or.inr rfl)
  · rw [if_neg hT]
    by_cases hS : ch.sourceCell < st.cellHeap.length ∧ q = ch.sourceCell
    · rw [if_pos hS]
      exact (doChange_dims_stash minW minH ch st h ch.sourceCell hS.1).2 (Or.inl rfl)
    · rw [if_neg hS]
      exact (doChange_dims_stash minW minH ch st h q hq).1

theorem rectDims_batchStep (minW minH : ℤ) (prop : ℕ → Change) (acc : ℕ → Bool)
    (s : Layout × ℚ × ℕ) (h : rectDims minW minH s.1) :
    rectDims minW minH (batchStep minW prop acc s).1 := by
  unfold batchStep
  simp only []
  split
  · exact rectDims_doChange minW minH _ s.1 h
  · split
    · exact rectDims_doChange minW minH _ s.1 h
    · exact rectDims_undo_do minW minH _ s.1 h

theorem rectDims_runBatch (minW minH : ℤ) (prop : ℕ → Change) (acc : ℕ → Bool) (n : ℕ) :
    ∀ s : Layout × ℚ × ℕ, rectDims minW minH s.1 →
      rectDims minW minH (runBatch minW prop acc n s).1 := by
  induction n with
  | zero => intro s h; exact h
  | succ n ih =>
    intro s h
    exact ih (batchStep minW prop acc s) (rectDims_batchStep minW minH prop acc s h)

theorem rectDims_innerLoop (minW minH : ℤ) (prop : ℕ → Change) (acc : ℕ → Bool) (fuel : ℕ) :
    ∀ (s : Layout × ℚ × ℕ) (stuck : ℕ) (s' : Layout × ℚ × ℕ),
      innerLoop minW prop acc fuel s stuck = some s' →
      rectDims minW minH s.1 → rectDims minW minH s'.1 := by
  induction fuel with
  | zero => intro s stuck s' hs; cases hs
  | succ fuel ih =>
    intro s stuck s' hs h
    unfold innerLoop at hs
    simp only [] at hs
    split at hs
    · exact ih _ _ _ hs (rectDims_runBatch minW minH prop acc _ s h)
    · cases hs
      exact rectDims_runBatch minW minH prop acc _ s h

theorem rectDims_coolLoop (minW minH : ℤ) (prop : ℕ → Change) (acc : ℕ → Bool)
    (innerFuel fuel : ℕ) :
    ∀ (t : ℚ) (s s' : Layout × ℚ × ℕ),
      coolLoop minW prop acc innerFuel fuel t s = some s' →
      rectDims minW minH s.1 → rectDims minW minH s'.1 := by
  induction fuel with
  | zero => intro t s s' hs; cases hs
  | succ fuel ih =>
    intro t s s' hs h
    unfold coolLoop at hs
    split at hs
    · cases hin : innerLoop minW prop acc innerFuel s 0 with
      | none => rw [hin] at hs; cases hs
      | some s1 =>
        rw [hin] at hs
        exact ih _ _ _ hs (rectDims_innerLoop minW minH prop acc innerFuel s 0 s1 hin h)
    · cases hs
      exact h

theorem distance_of_dims (minW minH : ℤ) (a b : Cell)
    (ha : a.rect.w = minW ∧ a.rect.h = minH) (hb : b.rect.w = minW ∧ b.rect.h = minH) :
    distance a b = |a.rect.x - b.rect.x| + |a.rect.y - b.rect.y| := by
  unfold distance
  rw [ha.1, ha.2, hb.1, hb.2]
  rw [show a.rect.x + Int.tdiv minW 2 - b.rect.x - Int.tdiv minW 2 = a.rect.x - b.rect.x by ring]
  rw [show a.rect.y + Int.tdiv minH 2 - b.rect.y - Int.tdiv minH 2 = a.rect.y - b.rect.y by ring]

theorem buildSlot_wh (minW minH rowX rowY : ℤ) (i : ℕ) (s : BuildSt)
    (h : ∀ c ∈ s.heap, c.rect.w = minW ∧ c.rect.h = minH) :
    ∀ c ∈ (buildSlot minW minH rowX rowY i s).1.heap, c.rect.w = minW ∧ c.rect.h = minH := by
  intro c hc
  unfold buildSlot at hc
  cases hnd : s.nodes.getLast? <;> rw [hnd] at hc <;> simp only [] at hc <;>
    rcases List.mem_append.mp hc with hmem | hnew
  · exact h c hmem
  · rw [List.mem_singleton.mp hnew]
    exact ⟨rfl, rfl⟩
  · exact h c hmem
  · rw [List.mem_singleton.mp hnew]
    exact ⟨rfl, rfl⟩

theorem buildRowAux_wh (minW minH rowX rowY : ℤ) (cnt : ℕ) :
    ∀ (i : ℕ) (s : BuildSt) (acc : List ℕ),
      (∀ c ∈ s.heap, c.rect.w = minW ∧ c.rect.h = minH) →
      ∀ c ∈ (buildRowAux minW minH rowX rowY i cnt s acc).1.heap,
        c.rect.w = minW ∧ c.rect.h = minH := by
  induction cnt with
  | zero => intro i s acc h; exact h
  | succ cnt ih =>
    intro i s acc h
    exact ih (i + 1) _ _ (buildSlot_wh minW minH rowX rowY i s h)

theorem buildRows_wh (minW minH : ℤ) (cols cnt : ℕ) :
    ∀ (j : ℕ) (s : BuildSt) (acc : List Row),
      (∀ c ∈ s.heap, c.rect.w = minW ∧ c.rect.h = minH) →
      ∀ c ∈ (buildRows minW minH cols j cnt s acc).1.heap,
        c.rect.w = minW ∧ c.rect.h = minH := by
  induction cnt with
  | zero => intro j s acc h; exact h
  | succ cnt ih =>
    intro j s acc h
    exact ih (j + 1) _ _ (buildRowAux_wh minW minH 0 ((j : ℤ) * minH) cols 0 s [] h)

theorem buildLayout_wh (minW minH : ℤ) (e : ℚ) (rows cols : ℕ) (nodes : List NodeData) :
    ∀ c ∈ (buildLayout minW minH e rows cols nodes).1.cellHeap,
      c.rect.w = minW ∧ c.rect.h = minH := by
  unfold buildLayout
  exact buildRows_wh minW minH cols rows 0 _ [] (by intro c hc; cases hc)

theorem wireEdges_pred (m : List (ℤ × ℕ)) (P : Cell → Prop)
    (hPout : ∀ (c : Cell) (x : List ℕ), P c → P { c with out := x })
    (hPinn : ∀ (c : Cell) (x : List ℕ), P c → P { c with inn := x }) :
    ∀ (edges : List (ℤ × ℤ)) (st L : Layout), wireEdges m edges st = .ok L →
      (∀ c ∈ st.cellHeap, P c) → ∀ c ∈ L.cellHeap, P c := by
  intro edges
  induction edges with
  | nil =>
    intro st L hok h
    cases hok
    exact h
  | cons e0 rest ih =>
    intro st L hok h
    unfold wireEdges at hok
    cases h0 : lookupCell m e0.1 <;> cases h1 : lookupCell m e0.2 <;> rw [h0, h1] at hok
    · cases hok
    · cases hok
    · cases hok
    · refine ih _ L hok ?_
      refine modifyCell_pred P _ _ _ (fun c hc => hPinn c _ hc) ?_
      exact modifyCell_pred P _ _ _ (fun c hc => hPout c _ hc) h

/-- C10: every cell rectangle keeps the fixed lattice width and height,
from construction through every `doChange`/`undoChange` (only `x` and `y`
are ever written): the constructed layout has uniform rectangle
dimensions, `doChange` preserves them, undoing a change that was just
done preserves them (the only way the code ever calls `undoChange`,
`layout_optimizer.cpp` 158), hence any layout `optimize` can return still
has them for arbitrary proposal/acceptance streams; and wherever they
hold, the truncated-center arithmetic in `distance` cancels and
`distance a b = |a.x − b.x| + |a.y − b.y|` for every pair of cells. -/
theorem cell_dims_invariant (minW minH : ℤ) :
    (∀ (e height width : ℚ) (nodes : List NodeData) (edges : List (ℤ × ℤ)) (L : Layout),
      initLayoutWith minW minH e height width nodes edges = .ok L →
      rectDims minW minH L) ∧
    (∀ (ch : Change) (st : Layout), rectDims minW minH st →
      rectDims minW minH (doChange minW ch st)) ∧
    (∀ (ch : Change) (st : Layout), rectDims minW minH st →
      rectDims minW minH (undoChange ch (doChange minW ch st))) ∧
    (∀ (prop : ℕ → Change) (acc : ℕ → Bool) (innerFuel outerFuel : ℕ) (st st' : Layout),
      rectDims minW minH st →
      optimize minW prop acc innerFuel outerFuel st = some st' →
      rectDims minW minH st') ∧
    (∀ st : Layout, rectDims minW minH st →
      ∀ a ∈ st.cellHeap, ∀ b ∈ st.cellHeap,
        distance a b = |a.rect.x - b.rect.x| + |a.rect.y - b.rect.y|) := by
  refine ⟨?_, ?_, ?_, ?_, ?_⟩
  · intro e height width nodes edges L hok
    unfold initLayoutWith at hok
    exact wireEdges_pred _ (fun c => c.rect.w = minW ∧ c.rect.h = minH)
      (fun c x hc => hc) (fun c x hc => hc) edges _ L hok
      (buildLayout_wh minW minH e _ _ nodes)
  · intro ch st h
    exact rectDims_doChange minW minH ch st h
  · intro ch st h
    exact rectDims_undo_do minW minH ch st h
  · intro prop acc innerFuel outerFuel st st' h hopt
    unfold optimize at hopt
    split at hopt
    · cases hopt
      exact h
    · cases hcl : coolLoop minW prop acc innerFuel outerFuel 200
          (st, ((calculateCost st : ℤ) : ℚ), 0) with
      | none => rw [hcl] at hopt; cases hopt
      | some s1 =>
        rw [hcl] at hopt
        cases hopt
        exact rectDims_coolLoop minW minH prop acc innerFuel outerFuel 200 _ s1 hcl h
  · intro st h a ha b hb
    exact distance_of_dims minW minH a b (h a ha) (h b hb)

/-- A two-cell one-row layout exactly as `initialize` leaves it: uniform
rectangles, zero-initialized stashes. -/
def stDims : Layout :=
  { minEdgeLength := 0
    all := [0, 1]
    rows := [⟨0, 0, [0, 1]⟩]
    cellHeap :=
      [⟨[], [1], some 0, ⟨0, 0, 2, 2⟩, ⟨0, 0, 0, 0⟩⟩,
       ⟨[0], [], some 1, ⟨2, 0, 2, 2⟩, ⟨0, 0, 0, 0⟩⟩] }

/-- A single-cell layout with lattice rectangle and zero stash. -/
def stDims1 : Layout :=
  { minEdgeLength := 0
    all := [0]
    rows := [⟨0, 0, [0]⟩]
    cellHeap := [⟨[], [], some 0, ⟨0, 0, 2, 2⟩, ⟨0, 0, 0, 0⟩⟩] }

theorem cell_dims_invariant_witness :
    rectDims 2 2 stDims ∧
    rectDims 2 2 (doChange 2 chEx stDims) ∧
    rectDims 2 2 (undoChange chEx (doChange 2 chEx stDims)) ∧
    rectDims 2 2 stDims1 ∧
    (∀ a ∈ stDims.cellHeap, ∀ b ∈ stDims.cellHeap,
      distance a b = |a.rect.x - b.rect.x| + |a.rect.y - b.rect.y|) := by
  have hopt : optimize 2 (fun _ => chEx) (fun _ => false) 1 1 stDims1 = some stDims1 := by
    unfold optimize
    rw [if_pos (by decide)]
  exact ⟨by decide,
    (cell_dims_invariant 2 2).2.1 chEx stDims (by decide),
    (cell_dims_invariant 2 2).2.2.1 chEx stDims (by decide),
    (cell_dims_invariant 2 2).2.2.2.1 (fun _ => chEx) (fun _ => false) 1 1 stDims1 stDims1
      (by decide) hopt,
    (cell_dims_invariant 2 2).2.2.2.2 stDims (by decide)⟩

theorem wireEdges_error (m : List (ℤ × ℕ)) (edges : List (ℤ × ℤ)) (ed : ℤ × ℤ)
    (hed : ed ∈ edges) (hmiss : lookupCell m ed.1 = none ∨ lookupCell m ed.2 = none) :
    ∀ st : Layout, ∃ msg, wireEdges m edges st = .error msg := by
  induction edges with
  | nil => cases hed
  | cons e0 rest ih =>
    intro st
    rcases List.mem_cons.mp hed with rfl | hrest
    · cases h0 : lookupCell m ed.1 <;> cases h1 : lookupCell m ed.2
      · exact ⟨_, by unfold wireEdges; rw [h0, h1]⟩
      · exact ⟨_, by unfold wireEdges; rw [h0, h1]⟩
      · exact ⟨_, by unfold wireEdges; rw [h0, h1]⟩
      · rcases hmiss with hm | hm
        · rw [hm] at h0; cases h0
        · rw [hm] at h1; cases h1
    · cases h0 : lookupCell m e0.1 <;> cases h1 : lookupCell m e0.2
      · exact ⟨_, by unfold wireEdges; rw [h0, h1]⟩
      · exact ⟨_, by unfold wireEdges; rw [h0, h1]⟩
      · exact ⟨_, by unfold wireEdges; rw [h0, h1]⟩
      · obtain ⟨msg, hmsg⟩ := ih hrest
          ((st.modifyCell _ (fun c => { c with out := c.out ++ [_] })).modifyCell _
            (fun c => { c with inn := c.inn ++ [_] }))
        refine ⟨msg, ?_⟩
        unfold wireEdges
        rw [h0, h1]
        exact hmsg

/-- C6: if some edge references a node index that was assigned no cell
during the build, `initialize` fails fast with an explicit error (the C++
`assert` aborts); no layout is produced, so the edge is neither silently
skipped nor wired through a nonexistent cell. -/
theorem initLayout_errors_on_unassigned_edge (minW minH : ℤ) (e height width : ℚ)
    (nodes : List NodeData) (edges : List (ℤ × ℤ)) (ed : ℤ × ℤ) (hed : ed ∈ edges)
    (hmiss :
      lookupCell (buildLayout minW minH e (rowsOf height minH e) (colsOf width minW e) nodes).2
          ed.1 = none ∨
      lookupCell (buildLayout minW minH e (rowsOf height minH e) (colsOf width minW e) nodes).2
          ed.2 = none) :
    ∃ msg, initLayoutWith minW minH e height width nodes edges = .error msg := by
  unfold initLayoutWith
  exact wireEdges_error _ edges ed hed hmiss _

theorem buildSlot_nilmap (minW minH rowX rowY : ℤ) (i : ℕ) (s : BuildSt) (h : s.nodes = []) :
    (buildSlot minW minH rowX rowY i s).1.nodes = [] ∧
    (buildSlot minW minH rowX rowY i s).1.nodesToCells = s.nodesToCells := by
  simp [buildSlot, h]

theorem buildRowAux_nilmap (minW minH rowX rowY : ℤ) (cnt : ℕ) :
    ∀ (i : ℕ) (s : BuildSt) (acc : List ℕ), s.nodes = [] →
      (buildRowAux minW minH rowX rowY i cnt s acc).1.nodes = [] ∧
      (buildRowAux minW minH rowX rowY i cnt s acc).1.nodesToCells = s.nodesToCells := by
  induction cnt with
  | zero => intro i s acc h; exact ⟨h, rfl⟩
  | succ cnt ih =>
    intro i s acc h
    obtain ⟨hn, hm⟩ := buildSlot_nilmap minW minH rowX rowY i s h
    obtain ⟨hn', hm'⟩ := ih (i + 1) _ _ hn
    exact ⟨hn', hm'.trans hm⟩

theorem buildRows_nilmap (minW minH : ℤ) (cols cnt : ℕ) :
    ∀ (j : ℕ) (s : BuildSt) (acc : List Row), s.nodes = [] →
      (buildRows minW minH cols j cnt s acc).1.nodes = [] ∧
      (buildRows minW minH cols j cnt s acc).1.nodesToCells = s.nodesToCells := by
  induction cnt with
  | zero => intro j s acc h; exact ⟨h, rfl⟩
  | succ cnt ih =>
    intro j s acc h
    obtain ⟨hn, hm⟩ := buildRowAux_nilmap minW minH 0 ((j : ℤ) * minH) cols 0 s [] h
    obtain ⟨hn', hm'⟩ := ih (j + 1) _ _ hn
    exact ⟨hn', hm'.trans hm⟩

theorem buildLayout_nilmap (minW minH : ℤ) (e : ℚ) (rows cols : ℕ) :
    (buildLayout minW minH e rows cols []).2 = [] := by
  unfold buildLayout
  exact (buildRows_nilmap minW minH cols rows 0 _ [] rfl).2

theorem initLayout_errors_on_unassigned_edge_witness :
    ((0, 1) : ℤ × ℤ) ∈ [((0, 1) : ℤ × ℤ)] ∧
      (lookupCell (buildLayout 2 2 0 (rowsOf 0 2 0) (colsOf 0 2 0) []).2 ((0 : ℤ), (1 : ℤ)).1 = none ∨
        lookupCell (buildLayout 2 2 0 (rowsOf 0 2 0) (colsOf 0 2 0) []).2 ((0 : ℤ), (1 : ℤ)).2 = none) ∧
      ∃ msg, initLayoutWith 2 2 0 0 0 [] [(0, 1)] = .error msg := by
  have hmiss :
      lookupCell (buildLayout 2 2 0 (rowsOf 0 2 0) (colsOf 0 2 0) []).2 ((0 : ℤ), (1 : ℤ)).1 = none ∨
      lookupCell (buildLayout 2 2 0 (rowsOf 0 2 0) (colsOf 0 2 0) []).2 ((0 : ℤ), (1 : ℤ)).2 = none :=
    Or.inl (by rw [buildLayout_nilmap]; rfl)
  exact ⟨by decide, hmiss,
    initLayout_errors_on_unassigned_edge 2 2 0 0 0 [] [(0, 1)] (0, 1) (by decide) hmiss⟩

theorem extractCellPass_node (e : ℚ) (j i : ℕ) (heap : List Cell) (cid : ℕ) (mW mH : ℚ) (k : ℕ) :
    ((extractCellPass e j i heap cid mW mH).1.getD k default).node = (heap.getD k default).node := by
  unfold extractCellPass
  simp only []
  by_cases hc : cid < heap.length
  · by_cases hk : cid = k
    · subst hk
      rw [getD_set_self _ _ _ _ hc]
    · rw [getD_set_ne _ _ _ hk]
  · rw [List.set_eq_of_length_le (Nat.le_of_not_lt hc)]

theorem extractRowPass_node (e : ℚ) (j : ℕ) (cids : List ℕ) :
    ∀ (i : ℕ) (acc : List Cell × ℚ × ℚ) (k : ℕ),
      ((extractRowPass e j cids i acc).1.getD k default).node = (acc.1.getD k default).node := by
  induction cids with
  | nil => intro i acc k; rfl
  | cons cid rest ih =>
    intro i acc k
    rw [show extractRowPass e j (cid :: rest) i acc =
      extractRowPass e j rest (i + 1) (extractCellPass e j i acc.1 cid acc.2.1 acc.2.2) from rfl]
    rw [ih]
    exact extractCellPass_node e j i acc.1 cid acc.2.1 acc.2.2 k

theorem extractPass_node (e : ℚ) (rows : List Row) :
    ∀ (j : ℕ) (acc : List Cell × ℚ × ℚ) (k : ℕ),
      ((extractPass e rows j acc).1.getD k default).node = (acc.1.getD k default).node := by
  induction rows with
  | nil => intro j acc k; rfl
  | cons row rest ih =>
    intro j acc k
    rw [show extractPass e (row :: rest) j acc =
      extractPass e rest (j + 1) (extractRowPass e j row.cells 0 acc) from rfl]
    rw [ih]
    exact extractRowPass_node e j row.cells 0 acc k

theorem batchStep_cellFields (minW : ℤ) (prop : ℕ → Change) (acc : ℕ → Bool)
    (s : Layout × ℚ × ℕ) (i : ℕ) :
    cellFieldsEq ((batchStep minW prop acc s).1.cellAt i) (s.1.cellAt i) := by
  unfold batchStep
  simp only []
  split
  · exact doChange_cellFields minW _ s.1 i
  · split
    · exact doChange_cellFields minW _ s.1 i
    · exact cellFieldsEq_trans (undoChange_cellFields _ _ i) (doChange_cellFields minW _ s.1 i)

theorem batchStep_all (minW : ℤ) (prop : ℕ → Change) (acc : ℕ → Bool) (s : Layout × ℚ × ℕ) :
    (batchStep minW prop acc s).1.all = s.1.all := by
  unfold batchStep
  simp only []
  split
  · exact doChange_all minW _ s.1
  · split
    · exact doChange_all minW _ s.1
    · exact (undoChange_all _ _).trans (doChange_all minW _ s.1)

theorem runBatch_cellFields (minW : ℤ) (prop : ℕ → Change) (acc : ℕ → Bool) (n : ℕ) :
    ∀ (s : Layout × ℚ × ℕ) (i : ℕ),
      cellFieldsEq ((runBatch minW prop acc n s).1.cellAt i) (s.1.cellAt i) := by
  induction n with
  | zero => intro s i; exact cellFieldsEq_refl _
  | succ n ih =>
    intro s i
    exact cellFieldsEq_trans (ih (batchStep minW prop acc s) i) (batchStep_cellFields minW prop acc s i)

theorem runBatch_all (minW : ℤ) (prop : ℕ → Change) (acc : ℕ → Bool) (n : ℕ) :
    ∀ s : Layout × ℚ × ℕ, (runBatch minW prop acc n s).1.all = s.1.all := by
  induction n with
  | zero => intro s; rfl
  | succ n ih =>
    intro s
    exact (ih (batchStep minW prop acc s)).trans (batchStep_all minW prop acc s)

theorem innerLoop_cellFields (minW : ℤ) (prop : ℕ → Change) (acc : ℕ → Bool) (fuel : ℕ) :
    ∀ (s : Layout × ℚ × ℕ) (stuck : ℕ) (s' : Layout × ℚ × ℕ),
      innerLoop minW prop acc fuel s stuck = some s' →
      ∀ i, cellFieldsEq (s'.1.cellAt i) (s.1.cellAt i) := by
  induction fuel with
  | zero => intro s stuck s' h; cases h
  | succ fuel ih =>
    intro s stuck s' h i
    unfold innerLoop at h
    simp only [] at h
    split at h
    · exact cellFieldsEq_trans (ih _ _ _ h i)
        (runBatch_cellFields minW prop acc (s.1.all.length * 100) s i)
    · cases h
      exact runBatch_cellFields minW prop acc (s.1.all.length * 100) s i

theorem coolLoop_cellFields (minW : ℤ) (prop : ℕ → Change) (acc : ℕ → Bool) (innerFuel : ℕ)
    (fuel : ℕ) :
    ∀ (t : ℚ) (s s' : Layout × ℚ × ℕ),
      coolLoop minW prop acc innerFuel fuel t s = some s' →
      ∀ i, cellFieldsEq (s'.1.cellAt i) (s.1.cellAt i) := by
  induction fuel with
  | zero => intro t s s' h; cases h
  | succ fuel ih =>
    intro t s s' h i
    unfold coolLoop at h
    split at h
    · cases hin : innerLoop minW prop acc innerFuel s 0 with
      | none => rw [hin] at h; cases h
      | some s1 =>
        rw [hin] at h
        exact cellFieldsEq_trans (ih _ _ _ h i)
          (innerLoop_cellFields minW prop acc innerFuel s 0 s1 hin i)
    · cases h
      exact cellFieldsEq_refl _

/-- C9: the annealer only moves cells between slots and updates their
rectangles: any layout `optimize` can return has every cell's attached
node and `in`/`out` adjacency exactly as in the input layout, and node
locations are never written by it (in this model `optimize` does not touch
node state at all, mirroring that the C++ code contains no `setLocation`
call outside `extract`).  The write phase of `extract` issues exactly one
`setLocation` per active cell, in order: the written nodes are precisely
`all` mapped to their attached nodes. -/
theorem annealer_frame_and_extract_writes (minW minH : ℤ) (prop : ℕ → Change) (acc : ℕ → Bool)
    (innerFuel outerFuel : ℕ) (st st' : Layout)
    (hopt : optimize minW prop acc innerFuel outerFuel st = some st') :
    (∀ i, (st'.cellAt i).node = (st.cellAt i).node ∧
          (st'.cellAt i).inn = (st.cellAt i).inn ∧
          (st'.cellAt i).out = (st.cellAt i).out) ∧
    (extractWrites minW minH st').map Prod.fst =
      st'.all.map (fun cid => (st'.cellAt cid).node) := by
  constructor
  · intro i
    unfold optimize at hopt
    split at hopt
    · cases hopt
      exact cellFieldsEq_refl _
    · cases hcl : coolLoop minW prop acc innerFuel outerFuel 200 (st, ((calculateCost st : ℤ) : ℚ), 0) with
      | none => rw [hcl] at hopt; cases hopt
      | some s1 =>
        rw [hcl] at hopt
        cases hopt
        exact coolLoop_cellFields minW prop acc innerFuel outerFuel 200 _ s1 hcl i
  · unfold extractWrites
    simp only []
    rw [List.map_map]
    refine List.map_congr_left ?_
    intro cid _
    simp only [Function.comp]
    exact extractPass_node st'.minEdgeLength st'.rows 0 (st'.cellHeap, 0, 0) cid

theorem annealer_frame_and_extract_writes_witness :
    optimize 2 (fun _ => chEx) (fun _ => false) 3 3 stOne = some stOne ∧
      ((∀ i, (stOne.cellAt i).node = (stOne.cellAt i).node ∧
             (stOne.cellAt i).inn = (stOne.cellAt i).inn ∧
             (stOne.cellAt i).out = (stOne.cellAt i).out) ∧
        (extractWrites 2 2 stOne).map Prod.fst =
          stOne.all.map (fun cid => (stOne.cellAt cid).node)) := by
  have h : optimize 2 (fun _ => chEx) (fun _ => false) 3 3 stOne = some stOne := by
    unfold optimize
    rw [if_pos (by decide)]
  exact ⟨h, annealer_frame_and_extract_writes 2 2 (fun _ => chEx) (fun _ => false) 3 3
    stOne stOne h⟩

/-- The node attached to the cell built at (row-major) slot `q`, when the
remaining node list is `ns`: slots consume the list from the back. -/
def slotNode (ns : List NodeData) (q : ℕ) : Option ℤ :=
  if q < ns.length then some ((ns.reverse.getD q default).idx) else none

theorem slotNode_nil (q : ℕ) : slotNode [] q = none := by
  simp [slotNode]

theorem slotNode_zero (ns : List NodeData) (nd : NodeData) (h : ns.getLast? = some nd) :
    slotNode ns 0 = some nd.idx := by
  have hne : ns ≠ [] := by
    intro hh
    rw [hh] at h
    cases h
  have hrev : ns.reverse = nd :: ns.dropLast.reverse := by
    conv_lhs => rw [← List.dropLast_append_getLast? nd h]
    exact List.reverse_concat' _ _
  unfold slotNode
  rw [if_pos (List.length_pos.mpr hne), hrev]
  rfl

theorem slotNode_succ (ns : List NodeData) (nd : NodeData) (h : ns.getLast? = some nd) (q : ℕ) :
    slotNode ns (q + 1) = slotNode ns.dropLast q := by
  have hne : ns ≠ [] := by
    intro hh
    rw [hh] at h
    cases h
  have hrev : ns.reverse = nd :: ns.dropLast.reverse := by
    conv_lhs => rw [← List.dropLast_append_getLast? nd h]
    exact List.reverse_concat' _ _
  have hlen : ns.length = ns.dropLast.length + 1 := by
    rw [List.length_dropLast]
    have := List.length_pos.mpr hne
    omega
  unfold slotNode
  rw [hrev, hlen]
  by_cases hq : q < ns.dropLast.length
  · rw [if_pos (by omega), if_pos hq]
    simp [List.getD_cons_succ]
  · rw [if_neg (by omega), if_neg hq]

/-- The cell built for one slot, without a node. -/
def emptyCellAt (minW minH rowX rowY : ℤ) (i : ℕ) : Cell :=
  ⟨[], [], none, ⟨rowX + (i : ℤ) * minW, rowY, minW, minH⟩, ⟨0, 0, 0, 0⟩⟩

/-- The cell built for one slot, with node `nd` attached. -/
def nodeCellAt (minW minH rowX rowY : ℤ) (i : ℕ) (nd : NodeData) : Cell :=
  ⟨[], [], some nd.idx, ⟨rowX + (i : ℤ) * minW, rowY, minW, minH⟩, ⟨0, 0, 0, 0⟩⟩

theorem buildSlot_nil (minW minH rowX rowY : ℤ) (i : ℕ) (s : BuildSt) (h : s.nodes = []) :
    buildSlot minW minH rowX rowY i s =
      ({ s with heap := s.heap ++ [emptyCellAt minW minH rowX rowY i] }, s.heap.length) := by
  unfold buildSlot
  rw [h]
  rfl

theorem buildSlot_cons (minW minH rowX rowY : ℤ) (i : ℕ) (s : BuildSt) (nd : NodeData)
    (h : s.nodes.getLast? = some nd) :
    buildSlot minW minH rowX rowY i s =
      ({ nodes := s.nodes.dropLast
         heap := s.heap ++ [nodeCellAt minW minH rowX rowY i nd]
         all := s.all ++ [s.heap.length]
         nodesToCells := (nd.idx, s.heap.length) :: s.nodesToCells }, s.heap.length) := by
  unfold buildSlot
  rw [h]
  rfl

theorem getD_concat_length {α : Type _} [Inhabited α] (l : List α) (c : α) :
    (l ++ [c]).getD l.length default = c := by
  simp [List.getD_eq_getElem?_getD]

/-- Full characterization of the inner `for (i < cols)` loop: how many
cells it appends, which prefix of the node list survives, which slots it
declares active, and which node each new cell carries. -/
theorem buildRowAux_spec (minW minH rowX rowY : ℤ) (cnt : ℕ) :
    ∀ (i : ℕ) (s : BuildSt) (acc : List ℕ),
      (buildRowAux minW minH rowX rowY i cnt s acc).1.nodes
          = s.nodes.take (s.nodes.length - cnt) ∧
      (buildRowAux minW minH rowX rowY i cnt s acc).1.heap.length = s.heap.length + cnt ∧
      (buildRowAux minW minH rowX rowY i cnt s acc).1.all
          = s.all ++ List.range' s.heap.length (min cnt s.nodes.length) ∧
      (∀ k, k < s.heap.length →
        (buildRowAux minW minH rowX rowY i cnt s acc).1.heap.getD k default
          = s.heap.getD k default) ∧
      (∀ q, q < cnt →
        ((buildRowAux minW minH rowX rowY i cnt s acc).1.heap.getD (s.heap.length + q)
            default).node
          = slotNode s.nodes q) := by
  induction cnt with
  | zero =>
    intro i s acc
    refine ⟨by simp [buildRowAux], by simp [buildRowAux], by simp [buildRowAux], ?_, ?_⟩
    · intro k _
      rfl
    · intro q hq
      exact absurd hq (Nat.not_lt_zero q)
  | succ cnt ih =>
    intro i s acc
    cases hL : s.nodes.getLast? with
    | none =>
      have hnil : s.nodes = [] := by
        cases hns : s.nodes with
        | nil => rfl
        | cons a as =>
          rw [hns] at hL
          rw [List.getLast?_eq_getLast _ (List.cons_ne_nil a as)] at hL
          cases hL
      have hstep : buildRowAux minW minH rowX rowY i (cnt + 1) s acc
          = buildRowAux minW minH rowX rowY (i + 1) cnt
              { s with heap := s.heap ++ [emptyCellAt minW minH rowX rowY i] }
              (acc ++ [s.heap.length]) := by
        show buildRowAux minW minH rowX rowY (i + 1) cnt (buildSlot minW minH rowX rowY i s).1
            (acc ++ [(buildSlot minW minH rowX rowY i s).2]) = _
        rw [buildSlot_nil minW minH rowX rowY i s hnil]
      obtain ⟨e1, e2, e3, e4, e5⟩ := ih (i + 1)
        { s with heap := s.heap ++ [emptyCellAt minW minH rowX rowY i] }
        (acc ++ [s.heap.length])
      simp only [] at e1 e2 e3 e4 e5
      simp only [List.length_append, List.length_singleton] at e2 e3 e4 e5
      rw [hstep]
      refine ⟨?_, ?_, ?_, ?_, ?_⟩
      · rw [e1, hnil]
        simp
      · rw [e2]
        omega
      · rw [e3, hnil]
        simp
      · intro k hk
        rw [e4 k (by omega)]
        exact List.getD_append _ _ _ _ hk
      · intro q hq
        have hsn : ∀ m : ℕ, slotNode s.nodes m = none := by
          intro m
          rw [hnil]
          exact slotNode_nil m
        rw [hsn]
        cases q with
        | zero =>
          simp only [Nat.add_zero]
          rw [e4 s.heap.length (by omega)]
          rw [getD_concat_length]
          rfl
        | succ q' =>
          have e5' := e5 q' (by omega)
          rw [show s.heap.length + (q' + 1) = s.heap.length + 1 + q' by omega]
          rw [e5', hsn]
    | some nd =>
      have hne : s.nodes ≠ [] := by
        intro hh
        rw [hh] at hL
        cases hL
      have hpos : 1 ≤ s.nodes.length := List.length_pos.mpr hne
      have hstep : buildRowAux minW minH rowX rowY i (cnt + 1) s acc
          = buildRowAux minW minH rowX rowY (i + 1) cnt
              { nodes := s.nodes.dropLast
                heap := s.heap ++ [nodeCellAt minW minH rowX rowY i nd]
                all := s.all ++ [s.heap.length]
                nodesToCells := (nd.idx, s.heap.length) :: s.nodesToCells }
              (acc ++ [s.heap.length]) := by
        show buildRowAux minW minH rowX rowY (i + 1) cnt (buildSlot minW minH rowX rowY i s).1
            (acc ++ [(buildSlot minW minH rowX rowY i s).2]) = _
        rw [buildSlot_cons minW minH rowX rowY i s nd hL]
      obtain ⟨e1, e2, e3, e4, e5⟩ := ih (i + 1)
        { nodes := s.nodes.dropLast
          heap := s.heap ++ [nodeCellAt minW minH rowX rowY i nd]
          all := s.all ++ [s.heap.length]
          nodesToCells := (nd.idx, s.heap.length) :: s.nodesToCells }
        (acc ++ [s.heap.length])
      simp only [] at e1 e2 e3 e4 e5
      simp only [List.length_append, List.length_singleton] at e2 e3 e4 e5
      rw [hstep]
      have hdl : s.nodes.dropLast.length = s.nodes.length - 1 := List.length_dropLast _
      refine ⟨?_, ?_, ?_, ?_, ?_⟩
      · rw [e1]
        simp only [hdl]
        rw [List.dropLast_eq_take, List.take_take]
        congr 1
        omega
      · rw [e2]
        omega
      · rw [e3]
        simp only [hdl]
        rw [show min (cnt + 1) s.nodes.length = min cnt (s.nodes.length - 1) + 1 by omega]
        rw [List.range'_succ, List.append_assoc, List.singleton_append]
      · intro k hk
        rw [e4 k (by omega)]
        exact List.getD_append _ _ _ _ hk
      · intro q hq
        cases q with
        | zero =>
          simp only [Nat.add_zero]
          rw [e4 s.heap.length (by omega)]
          rw [getD_concat_length, slotNode_zero s.nodes nd hL]
          rfl
        | succ q' =>
          have e5' := e5 q' (by omega)
          rw [show s.heap.length + (q' + 1) = s.heap.length + 1 + q' by omega]
          rw [e5', slotNode_succ s.nodes nd hL q']

theorem slotNode_take (ns : List NodeData) (cols q' : ℕ) (h : cols ≤ ns.length) :
    slotNode (ns.take (ns.length - cols)) q' = slotNode ns (cols + q') := by
  unfold slotNode
  have hlen : (ns.take (ns.length - cols)).length = ns.length - cols := by
    rw [List.length_take]
    omega
  rw [hlen]
  by_cases hq : q' < ns.length - cols
  · rw [if_pos hq, if_pos (by omega)]
    rw [List.reverse_take]
    rw [show ns.length - (ns.length - cols) = cols by omega]
    rw [List.getD_eq_getElem?_getD, List.getD_eq_getElem?_getD, List.getElem?_drop]
  · rw [if_neg hq, if_neg (by omega)]

/-- Full characterization of the outer `for (j < rows)` loop, `cnt` rows of
`cols` slots each. -/
theorem buildRows_spec (minW minH : ℤ) (cols : ℕ) (cnt : ℕ) :
    ∀ (j : ℕ) (s : BuildSt) (acc : List Row),
      (buildRows minW minH cols j cnt s acc).1.nodes
          = s.nodes.take (s.nodes.length - cnt * cols) ∧
      (buildRows minW minH cols j cnt s acc).1.heap.length = s.heap.length + cnt * cols ∧
      (buildRows minW minH cols j cnt s acc).1.all
          = s.all ++ List.range' s.heap.length (min (cnt * cols) s.nodes.length) ∧
      (∀ k, k < s.heap.length →
        (buildRows minW minH cols j cnt s acc).1.heap.getD k default = s.heap.getD k default) ∧
      (∀ q, q < cnt * cols →
        ((buildRows minW minH cols j cnt s acc).1.heap.getD (s.heap.length + q) default).node
          = slotNode s.nodes q) := by
  induction cnt with
  | zero =>
    intro j s acc
    refine ⟨by simp [buildRows], by simp [buildRows], by simp [buildRows], ?_, ?_⟩
    · intro k _
      rfl
    · intro q hq
      simp at hq
  | succ cnt ih =>
    intro j s acc
    have hstep : buildRows minW minH cols j (cnt + 1) s acc
        = buildRows minW minH cols (j + 1) cnt
            (buildRowAux minW minH 0 ((j : ℤ) * minH) 0 cols s []).1
            (acc ++ [⟨0, (j : ℤ) * minH, (buildRowAux minW minH 0 ((j : ℤ) * minH) 0 cols s []).2⟩]) :=
      rfl
    have hmul : (cnt + 1) * cols = cnt * cols + cols := by ring
    obtain ⟨i1, i2, i3, i4, i5⟩ := buildRowAux_spec minW minH 0 ((j : ℤ) * minH) cols 0 s []
    obtain ⟨o1, o2, o3, o4, o5⟩ := ih (j + 1)
      (buildRowAux minW minH 0 ((j : ℤ) * minH) 0 cols s []).1
      (acc ++ [⟨0, (j : ℤ) * minH, (buildRowAux minW minH 0 ((j : ℤ) * minH) 0 cols s []).2⟩])
    have hlen1 : (buildRowAux minW minH 0 ((j : ℤ) * minH) 0 cols s []).1.nodes.length
        = s.nodes.length - cols := by
      rw [i1, List.length_take]
      omega
    rw [hstep]
    refine ⟨?_, ?_, ?_, ?_, ?_⟩
    · rw [o1, hlen1, i1]
      rw [List.take_take]
      congr 1
      omega
    · rw [o2, i2]
      ring
    · rw [o3, i3, i2, hlen1]
      by_cases hcL : cols ≤ s.nodes.length
      · rw [min_eq_left hcL, List.append_assoc]
        congr 1
        have hr := List.range'_append s.heap.length cols (min (cnt * cols) (s.nodes.length - cols)) 1
        simp only [one_mul] at hr
        rw [hr]
        congr 1
        omega
      · rw [min_eq_right (by omega : s.nodes.length ≤ cols)]
        rw [show min (cnt * cols) (s.nodes.length - cols) = 0 by omega]
        rw [List.range'_zero, List.append_nil]
        congr 2
        omega
    · intro k hk
      rw [o4 k (by rw [i2]; omega)]
      exact i4 k hk
    · intro q hq
      by_cases hq1 : q < cols
      · rw [o4 (s.heap.length + q) (by rw [i2]; omega)]
        exact i5 q hq1
      · obtain ⟨q', rfl⟩ : ∃ q', q = cols + q' := ⟨q - cols, by omega⟩
        have hq' : q' < cnt * cols := by
          rcases Nat.lt_or_ge q' (cnt * cols) with h | h
          · exact h
          · exfalso
            have : (cnt + 1) * cols = cols + cnt * cols := by ring
            omega
        have o5' := o5 q' hq'
        rw [i2] at o5'
        rw [show s.heap.length + (cols + q') = s.heap.length + cols + q' by omega]
        rw [o5', i1]
        by_cases hcL : cols ≤ s.nodes.length
        · exact slotNode_take s.nodes cols q' hcL
        · rw [show s.nodes.length - cols = 0 by omega, List.take_zero, slotNode_nil]
          unfold slotNode
          rw [if_neg (by omega)]

/-- C7-level characterization of the whole lattice build. -/
theorem buildLayout_spec (minW minH : ℤ) (e : ℚ) (rows cols : ℕ) (nodes : List NodeData) :
    (buildLayout minW minH e rows cols nodes).1.all
        = List.range' 0 (min (rows * cols) nodes.length) ∧
    (buildLayout minW minH e rows cols nodes).1.cellHeap.length = rows * cols ∧
    (∀ q, q < rows * cols →
      ((buildLayout minW minH e rows cols nodes).1.cellAt q).node = slotNode nodes q) := by
  obtain ⟨o1, o2, o3, o4, o5⟩ :=
    buildRows_spec minW minH cols rows 0 ⟨nodes, [], [], []⟩ []
  refine ⟨?_, ?_, ?_⟩
  · rw [show (buildLayout minW minH e rows cols nodes).1.all
        = (buildRows minW minH cols 0 rows ⟨nodes, [], [], []⟩ []).1.all from rfl]
    rw [o3]
    rfl
  · rw [show (buildLayout minW minH e rows cols nodes).1.cellHeap
        = (buildRows minW minH cols 0 rows ⟨nodes, [], [], []⟩ []).1.heap from rfl]
    rw [o2]
    simp
  · intro q hq
    have o5' := o5 q hq
    simp only [List.length_nil, Nat.zero_add] at o5'
    rw [show (buildLayout minW minH e rows cols nodes).1.cellAt q
        = (buildRows minW minH cols 0 rows ⟨nodes, [], [], []⟩ []).1.heap.getD q default from rfl]
    exact o5'

theorem ratFloor_eq_intFloor (q : ℚ) : Rat.floor q = ⌊q⌋ := by
  refine le_antisymm ?_ ?_
  · exact Int.le_floor.mpr (Rat.le_floor.mp le_rfl)
  · exact Rat.le_floor.mpr (Int.floor_le q)

theorem qtrunc_of_nonneg (q : ℚ) (h : 0 ≤ q) : qtrunc q = ⌊q⌋ := by
  unfold qtrunc
  rw [if_pos h, ratFloor_eq_intFloor]

/-- The `+ 1` in the lattice-dimension formula over-provisions: the real
quotient is strictly below the integer row count. -/
theorem lt_rowsOf (height : ℚ) (minH : ℤ) (e : ℚ) (hh : 0 ≤ height)
    (hd : 0 < (minH : ℚ) + e) :
    height / ((minH : ℚ) + e) < ((rowsOf height minH e : ℕ) : ℚ) := by
  unfold rowsOf
  have hq0 : 0 ≤ height / ((minH : ℚ) + e) := div_nonneg hh (le_of_lt hd)
  rw [qtrunc_of_nonneg _ hq0]
  have h1 : height / ((minH : ℚ) + e) < (⌊height / ((minH : ℚ) + e)⌋ : ℚ) + 1 :=
    Int.lt_floor_add_one _
  have h2 : (⌊height / ((minH : ℚ) + e)⌋ : ℚ) ≤ ((⌊height / ((minH : ℚ) + e)⌋.toNat : ℤ) : ℚ) := by
    exact_mod_cast Int.self_le_toNat _
  push_cast
  push_cast at h2
  linarith

theorem lt_colsOf (width : ℚ) (minW : ℤ) (e : ℚ) (hw : 0 ≤ width)
    (hd : 0 < (minW : ℚ) + e) :
    width / ((minW : ℚ) + e) < ((colsOf width minW e : ℕ) : ℚ) := by
  unfold colsOf
  have hq0 : 0 ≤ width / ((minW : ℚ) + e) := div_nonneg hw (le_of_lt hd)
  rw [qtrunc_of_nonneg _ hq0]
  have h1 : width / ((minW : ℚ) + e) < (⌊width / ((minW : ℚ) + e)⌋ : ℚ) + 1 :=
    Int.lt_floor_add_one _
  have h2 : (⌊width / ((minW : ℚ) + e)⌋ : ℚ) ≤ ((⌊width / ((minW : ℚ) + e)⌋.toNat : ℤ) : ℚ) := by
    exact_mod_cast Int.self_le_toNat _
  push_cast
  push_cast at h2
  linarith

theorem footprintArea_ge (nodes : List NodeData) (e : ℚ) (minW minH : ℤ)
    (hsz : ∀ n ∈ nodes, (minW : ℚ) ≤ (n.w : ℚ) ∧ (minH : ℚ) ≤ (n.h : ℚ))
    (hH : 0 < (minH : ℚ) + e) (hW : 0 ≤ (minW : ℚ) + e) :
    (nodes.length : ℚ) * (((minW : ℚ) + e) * ((minH : ℚ) + e)) ≤ footprintArea nodes e := by
  induction nodes with
  | nil => simp [footprintArea]
  | cons n ns ih =>
    have h1 := (hsz n (List.mem_cons_self n ns)).1
    have h2 := (hsz n (List.mem_cons_self n ns)).2
    have hper : ((minW : ℚ) + e) * ((minH : ℚ) + e) ≤ ((n.w : ℚ) + e) * ((n.h : ℚ) + e) :=
      mul_le_mul (by linarith) (by linarith) (le_of_lt hH) (by linarith)
    have ihh := ih (fun m hm => hsz m (List.mem_cons_of_mem n hm))
    unfold footprintArea at ihh ⊢
    simp only [List.map_cons, List.sum_cons, List.length_cons]
    push_cast
    linarith

/-- C7: for a non-empty node list whose nodes all have at least the
minimum dimensions, the derived lattice has capacity for every node
(`rows × cols ≥ N`), so the build consumes the node list from the end,
assigns every node to exactly one distinct cell in row-major heap order
(`all = [0, …, N−1]`, cell `q` carrying the `q`-th node from the back),
and leaves the remaining `rows × cols − N` cells empty. -/
theorem build_assigns_every_node (minW minH : ℤ) (e height width : ℚ) (nodes : List NodeData)
    (hne : nodes ≠ [])
    (hsz : ∀ n ∈ nodes, (minW : ℚ) ≤ (n.w : ℚ) ∧ (minH : ℚ) ≤ (n.h : ℚ))
    (hW : 0 < minW) (hH : 0 < minH) (he : 0 ≤ e)
    (hhw : height * width = footprintArea nodes e) (hh : 0 ≤ height) :
    nodes.length ≤ rowsOf height minH e * colsOf width minW e ∧
    (buildLayout minW minH e (rowsOf height minH e) (colsOf width minW e) nodes).1.all
        = List.range nodes.length ∧
    (buildLayout minW minH e (rowsOf height minH e) (colsOf width minW e) nodes).1.cellHeap.length
        = rowsOf height minH e * colsOf width minW e ∧
    (∀ q, q < nodes.length →
      ((buildLayout minW minH e (rowsOf height minH e) (colsOf width minW e) nodes).1.cellAt q).node
        = some ((nodes.reverse.getD q default).idx)) ∧
    (∀ q, nodes.length ≤ q →
      ((buildLayout minW minH e (rowsOf height minH e) (colsOf width minW e) nodes).1.cellAt q).node
        = none) := by
  have hWq : (0 : ℚ) < (minW : ℚ) + e := by
    have h0 : (0 : ℚ) < (minW : ℚ) := by exact_mod_cast hW
    linarith
  have hHq : (0 : ℚ) < (minH : ℚ) + e := by
    have h0 : (0 : ℚ) < (minH : ℚ) := by exact_mod_cast hH
    linarith
  have hN1 : 1 ≤ nodes.length := List.length_pos.mpr hne
  have hNq : (0 : ℚ) < (nodes.length : ℚ) := by
    exact_mod_cast Nat.lt_of_lt_of_le Nat.zero_lt_one hN1
  have hge := footprintArea_ge nodes e minW minH hsz hHq (le_of_lt hWq)
  have harea : (0 : ℚ) < footprintArea nodes e := by
    have hp : (0 : ℚ) < (nodes.length : ℚ) * (((minW : ℚ) + e) * ((minH : ℚ) + e)) :=
      mul_pos hNq (mul_pos hWq hHq)
    linarith
  have hheight : 0 < height := by
    rcases eq_or_lt_of_le hh with h0 | h0
    · exfalso
      rw [← h0, zero_mul] at hhw
      linarith
    · exact h0
  have hwidth : 0 < width := by
    by_contra hwn
    push_neg at hwn
    nlinarith
  have hcap : nodes.length ≤ rowsOf height minH e * colsOf width minW e := by
    have hNle : (nodes.length : ℚ) ≤ (height / ((minH : ℚ) + e)) * (width / ((minW : ℚ) + e)) := by
      rw [div_mul_div_comm, hhw, le_div_iff₀ (mul_pos hHq hWq)]
      calc (nodes.length : ℚ) * (((minH : ℚ) + e) * ((minW : ℚ) + e))
          = (nodes.length : ℚ) * (((minW : ℚ) + e) * ((minH : ℚ) + e)) := by ring
        _ ≤ footprintArea nodes e := hge
    have hlt := mul_lt_mul'' (lt_rowsOf height minH e hh hHq)
      (lt_colsOf width minW e (le_of_lt hwidth) hWq)
      (div_nonneg hh (le_of_lt hHq)) (div_nonneg (le_of_lt hwidth) (le_of_lt hWq))
    have hq : (nodes.length : ℚ) < ((rowsOf height minH e * colsOf width minW e : ℕ) : ℚ) := by
      push_cast
      push_cast at hlt
      linarith
    exact Nat.le_of_lt (by exact_mod_cast hq)
  obtain ⟨b1, b2, b3⟩ :=
    buildLayout_spec minW minH e (rowsOf height minH e) (colsOf width minW e) nodes
  refine ⟨hcap, ?_, b2, ?_, ?_⟩
  · rw [b1, min_eq_right hcap, List.range_eq_range']
  · intro q hq
    rw [b3 q (by omega)]
    unfold slotNode
    rw [if_pos hq]
  · intro q hq
    by_cases hqK : q < rowsOf height minH e * colsOf width minW e
    · rw [b3 q hqK]
      unfold slotNode
      rw [if_neg (by omega)]
    · have hdef : (buildLayout minW minH e (rowsOf height minH e) (colsOf width minW e)
          nodes).1.cellAt q = default := by
        unfold Layout.cellAt
        rw [List.getD_eq_getElem?_getD, List.getElem?_eq_none (by rw [b2]; omega)]
        rfl
      rw [hdef]
      rfl

theorem build_assigns_every_node_witness :
    ([⟨7, 2, 2⟩] : List NodeData) ≠ [] ∧
      ((2 : ℚ) * 2 = footprintArea [⟨7, 2, 2⟩] 0) ∧
      (([⟨7, 2, 2⟩] : List NodeData).length ≤ rowsOf 2 2 0 * colsOf 2 2 0 ∧
        (buildLayout 2 2 0 (rowsOf 2 2 0) (colsOf 2 2 0) [⟨7, 2, 2⟩]).1.all
            = List.range ([⟨7, 2, 2⟩] : List NodeData).length ∧
        (buildLayout 2 2 0 (rowsOf 2 2 0) (colsOf 2 2 0) [⟨7, 2, 2⟩]).1.cellHeap.length
            = rowsOf 2 2 0 * colsOf 2 2 0 ∧
        (∀ q, q < ([⟨7, 2, 2⟩] : List NodeData).length →
          ((buildLayout 2 2 0 (rowsOf 2 2 0) (colsOf 2 2 0) [⟨7, 2, 2⟩]).1.cellAt q).node
            = some ((([⟨7, 2, 2⟩] : List NodeData).reverse.getD q default).idx)) ∧
        (∀ q, ([⟨7, 2, 2⟩] : List NodeData).length ≤ q →
          ((buildLayout 2 2 0 (rowsOf 2 2 0) (colsOf 2 2 0) [⟨7, 2, 2⟩]).1.cellAt q).node
            = none)) := by
  refine ⟨by decide, by norm_num [footprintArea], ?_⟩
  refine build_assigns_every_node 2 2 0 2 2 [⟨7, 2, 2⟩] (by decide) ?_ (by decide) (by decide)
    (by norm_num) (by norm_num [footprintArea]) (by norm_num)
  intro n hn
  rw [List.mem_singleton] at hn
  subst hn
  norm_num

/-- The `out` list `initialize` builds for cell `a` from edge list `E`:
the targets of the edges with source `a`, in edge order. -/
def outFrom (E : List (ℕ × ℕ)) (a : ℕ) : List ℕ :=
  (E.filter (fun ed => ed.1 == a)).map Prod.snd

/-- The `in` list `initialize` builds for cell `a` from edge list `E`. -/
def innFrom (E : List (ℕ × ℕ)) (a : ℕ) : List ℕ :=
  (E.filter (fun ed => ed.2 == a)).map Prod.fst

/-- The adjacency shape `initialize` guarantees: active cells are listed
once each, every active cell's `out` list comes from the edge list, and
every edge's source is an active cell. -/
def edgesWF (st : Layout) (E : List (ℕ × ℕ)) : Prop :=
  st.all.Nodup ∧
  (∀ a ∈ st.all, (st.cellAt a).out = outFrom E a) ∧
  (∀ ed ∈ E, ed.1 ∈ st.all)

instance (st : Layout) (E : List (ℕ × ℕ)) : Decidable (edgesWF st E) := by
  unfold edgesWF
  exact inferInstance

theorem sum_map_sub_int {β : Type _} (l : List β) (f g : β → ℤ) :
    (l.map (fun x => f x - g x)).sum = (l.map f).sum - (l.map g).sum := by
  induction l with
  | nil => simp
  | cons x xs ih =>
    simp [ih]
    ring

theorem sum_map_ite_single (l : List ℕ) (x : ℕ) (g : ℕ → ℤ) (hn : l.Nodup) (hx : x ∈ l) :
    (l.map (fun a => if x = a then g a else 0)).sum = g x := by
  induction l with
  | nil => cases hx
  | cons a l ih =>
    rw [List.map_cons, List.sum_cons]
    rcases List.mem_cons.mp hx with rfl | hmem
    · rw [if_pos rfl]
      have hz : ∀ y ∈ l.map (fun b => if x = b then g b else 0), y = 0 := by
        intro y hy
        obtain ⟨b, hb, rfl⟩ := List.mem_map.mp hy
        rw [if_neg]
        intro hEq
        exact (List.nodup_cons.mp hn).1 (hEq ▸ hb)
      rw [List.sum_eq_zero hz]
      ring
    · have hxa : x ≠ a := by
        intro hEq
        exact (List.nodup_cons.mp hn).1 (hEq ▸ hmem)
      rw [if_neg hxa, ih (List.nodup_cons.mp hn).2 hmem]
      ring

/-- Summing the per-source out-distances over the (duplicate-free) active
list counts each edge exactly once. -/
theorem sum_outFrom (d : ℕ → ℕ → ℤ) (all : List ℕ) (E : List (ℕ × ℕ))
    (hn : all.Nodup) (hsrc : ∀ ed ∈ E, ed.1 ∈ all) :
    (all.map (fun a => ((outFrom E a).map (fun b => d a b)).sum)).sum
      = (E.map (fun ed => d ed.1 ed.2)).sum := by
  induction E with
  | nil => simp [outFrom]
  | cons ed E ih =>
    have hsrc' : ∀ x ∈ E, x.1 ∈ all := fun x hx => hsrc x (List.mem_cons_of_mem ed hx)
    have hmem : ed.1 ∈ all := hsrc ed (List.mem_cons_self ed E)
    have hpt : ∀ a, ((outFrom (ed :: E) a).map (fun b => d a b)).sum
        = (if ed.1 = a then d a ed.2 else 0) + ((outFrom E a).map (fun b => d a b)).sum := by
      intro a
      unfold outFrom
      rw [List.filter_cons]
      by_cases h : ed.1 = a
      · rw [if_pos (by simp [h]), if_pos h]
        simp
      · rw [if_neg (by simp [h]), if_neg h]
        simp
    calc (all.map (fun a => ((outFrom (ed :: E) a).map (fun b => d a b)).sum)).sum
        = (all.map (fun a =>
            (if ed.1 = a then d a ed.2 else 0) + ((outFrom E a).map (fun b => d a b)).sum)).sum :=
          congrArg List.sum (List.map_congr_left (fun a _ => hpt a))
      _ = (all.map (fun a => if ed.1 = a then d a ed.2 else 0)).sum
            + (all.map (fun a => ((outFrom E a).map (fun b => d a b)).sum)).sum :=
          List.sum_map_add
      _ = d ed.1 ed.2 + (E.map (fun x => d x.1 x.2)).sum := by
          rw [ih hsrc', sum_map_ite_single all ed.1 (fun a => d a ed.2) hn hmem]
      _ = ((ed :: E).map (fun x => d x.1 x.2)).sum := by
          rw [List.map_cons, List.sum_cons]

/-- `calculateCost` as a sum over the edge list. -/
theorem calculateCost_eq_edgeCost (st : Layout) (E : List (ℕ × ℕ)) (h : edgesWF st E) :
    calculateCost st
      = (E.map (fun ed => distance (st.cellAt ed.1) (st.cellAt ed.2))).sum := by
  unfold calculateCost outCost connectionCost
  calc (st.all.map (fun i =>
        ((st.cellAt i).out.map (fun b => distance (st.cellAt i) (st.cellAt b))).sum)).sum
      = (st.all.map (fun a =>
          ((outFrom E a).map (fun b => distance (st.cellAt a) (st.cellAt b))).sum)).sum := by
        refine congrArg List.sum (List.map_congr_left ?_)
        intro a ha
        rw [h.2.1 a ha]
    _ = (E.map (fun ed => distance (st.cellAt ed.1) (st.cellAt ed.2))).sum :=
        sum_outFrom (fun a b => distance (st.cellAt a) (st.cellAt b)) st.all E h.1 h.2.2

/-- The compound cost of cell `c`, written against the edge list. -/
def ccE (st : Layout) (E : List (ℕ × ℕ)) (c : ℕ) : ℤ :=
  ((E.filter (fun ed => ed.2 == c)).map (fun ed => distance (st.cellAt c) (st.cellAt ed.1))).sum
    + ((E.filter (fun ed => ed.1 == c)).map (fun ed => distance (st.cellAt c) (st.cellAt ed.2))).sum

theorem compoundCost_eq_ccE (st : Layout) (E : List (ℕ × ℕ)) (c : ℕ)
    (hout : (st.cellAt c).out = outFrom E c) (hinn : (st.cellAt c).inn = innFrom E c) :
    compoundCost st (st.cellAt c) = ccE st E c := by
  unfold compoundCost connectionCost ccE
  rw [hout, hinn]
  unfold outFrom innFrom
  rw [List.map_map, List.map_map]
  rfl

/-- The transposition of the two swapped cell indices. -/
def swapFn (s t x : ℕ) : ℕ := if x = s then t else if x = t then s else x

theorem distance_self (a : Cell) : distance a a = 0 := by
  unfold distance
  simp

theorem distance_comm (a b : Cell) : distance a b = distance b a := by
  unfold distance
  rw [show a.rect.x + Int.tdiv a.rect.w 2 - b.rect.x - Int.tdiv b.rect.w 2
      = -(b.rect.x + Int.tdiv b.rect.w 2 - a.rect.x - Int.tdiv a.rect.w 2) by ring, abs_neg]
  rw [show a.rect.y + Int.tdiv a.rect.h 2 - b.rect.y - Int.tdiv b.rect.h 2
      = -(b.rect.y + Int.tdiv b.rect.h 2 - a.rect.y - Int.tdiv a.rect.h 2) by ring, abs_neg]

/-- A swap of two equal-sized, slot-aligned cells exchanges the two
rectangles exactly: the post-swap heap is the pre-swap heap composed with
the transposition. -/
theorem doChange_rect_swap (minW : ℤ) (st : Layout) (ch : Change)
    (h7 : ch.sourceCell ≠ ch.targetCell)
    (h8 : ch.sourceCell < st.cellHeap.length)
    (h9 : ch.targetCell < st.cellHeap.length)
    (hsx : (st.cellAt ch.sourceCell).rect.x
        = (st.rows.getD ch.sourceRow default).rectX + (ch.sourceIndex : ℤ) * minW)
    (hsy : (st.cellAt ch.sourceCell).rect.y = (st.rows.getD ch.sourceRow default).rectY)
    (htx : (st.cellAt ch.targetCell).rect.x
        = (st.rows.getD ch.targetRow default).rectX + (ch.targetIndex : ℤ) * minW)
    (hty : (st.cellAt ch.targetCell).rect.y = (st.rows.getD ch.targetRow default).rectY)
    (hw : (st.cellAt ch.sourceCell).rect.w = (st.cellAt ch.targetCell).rect.w)
    (hh : (st.cellAt ch.sourceCell).rect.h = (st.cellAt ch.targetCell).rect.h) (k : ℕ) :
    ((doChange minW ch st).cellAt k).rect
      = (st.cellAt (swapFn ch.sourceCell ch.targetCell k)).rect := by
  rw [doChange_cellAt minW st ch h7 h8 h9 k]
  unfold swapFn
  by_cases hk1 : k = ch.sourceCell
  · subst hk1
    rw [if_pos rfl, if_pos rfl]
    exact Rect.ext htx.symm hty.symm hw hh
  · by_cases hk2 : k = ch.targetCell
    · subst hk2
      rw [if_neg hk1, if_pos rfl, if_neg hk1, if_pos rfl]
      exact Rect.ext hsx.symm hsy.symm hw.symm hh.symm
    · rw [if_neg hk1, if_neg hk2, if_neg hk1, if_neg hk2]

/-- Per-edge accounting of the incremental cost update under the swap. -/
theorem per_edge (st st' : Layout) (s t : ℕ) (hst : s ≠ t)
    (hswap : ∀ k, (st'.cellAt k).rect = (st.cellAt (swapFn s t k)).rect) (a b : ℕ) :
    distance (st'.cellAt a) (st'.cellAt b)
      = distance (st.cellAt a) (st.cellAt b)
        - (if b = s then distance (st.cellAt s) (st.cellAt a) else 0)
        - (if a = s then distance (st.cellAt s) (st.cellAt b) else 0)
        - (if b = t then distance (st.cellAt t) (st.cellAt a) else 0)
        - (if a = t then distance (st.cellAt t) (st.cellAt b) else 0)
        + (if b = s then distance (st'.cellAt s) (st'.cellAt a) else 0)
        + (if a = s then distance (st'.cellAt s) (st'.cellAt b) else 0)
        + (if b = t then distance (st'.cellAt t) (st'.cellAt a) else 0)
        + (if a = t then distance (st'.cellAt t) (st'.cellAt b) else 0) := by
  have key : ∀ k l, distance (st'.cellAt k) (st'.cellAt l)
      = distance (st.cellAt (swapFn s t k)) (st.cellAt (swapFn s t l)) :=
    fun k l => distance_rect_congr (hswap k) (hswap l)
  have hσs : swapFn s t s = t := by simp [swapFn]
  have hσt : swapFn s t t = s := by simp [swapFn, Ne.symm hst]
  have c1 := distance_comm (st.cellAt s) (st.cellAt t)
  have z1 := distance_self (st.cellAt s)
  have z2 := distance_self (st.cellAt t)
  by_cases ha1 : a = s
  · by_cases hb1 : b = s
    · rw [ha1, hb1]
      simp only [key, hσs, hσt, if_pos rfl, if_neg hst, if_true]
      linarith [c1, z1, z2]
    · by_cases hb2 : b = t
      · rw [ha1, hb2]
        simp only [key, hσs, hσt, if_pos rfl, if_neg hst, if_neg (Ne.symm hst), if_true]
        linarith [c1, z1, z2]
      · rw [ha1]
        have hσb : swapFn s t b = b := by simp [swapFn, hb1, hb2]
        simp only [key, hσs, hσt, hσb, if_pos rfl, if_neg hst, if_neg hb1, if_neg hb2, if_true]
        linarith [distance_comm (st.cellAt s) (st.cellAt b),
          distance_comm (st.cellAt t) (st.cellAt b), c1, z1, z2]
  · by_cases ha2 : a = t
    · by_cases hb1 : b = s
      · rw [ha2, hb1]
        simp only [key, hσs, hσt, if_pos rfl, if_neg hst, if_neg (Ne.symm hst), if_true]
        linarith [c1, z1, z2]
      · by_cases hb2 : b = t
        · rw [ha2, hb2]
          simp only [key, hσs, hσt, if_pos rfl, if_neg (Ne.symm hst), if_true]
          linarith [c1, z1, z2]
        · rw [ha2]
          have hσb : swapFn s t b = b := by simp [swapFn, hb1, hb2]
          simp only [key, hσs, hσt, hσb, if_pos rfl, if_neg (Ne.symm hst), if_neg hb1,
            if_neg hb2, if_true]
          linarith [distance_comm (st.cellAt s) (st.cellAt b),
            distance_comm (st.cellAt t) (st.cellAt b), c1, z1, z2]
    · have hσa : swapFn s t a = a := by simp [swapFn, ha1, ha2]
      by_cases hb1 : b = s
      · rw [hb1]
        simp only [key, hσs, hσt, hσa, if_pos rfl, if_neg hst, if_neg ha1, if_neg ha2, if_true]
        linarith [distance_comm (st.cellAt s) (st.cellAt a),
          distance_comm (st.cellAt t) (st.cellAt a), c1, z1, z2]
      · by_cases hb2 : b = t
        · rw [hb2]
          simp only [key, hσs, hσt, hσa, if_pos rfl, if_neg (Ne.symm hst), if_neg ha1,
            if_neg ha2, if_true]
          linarith [distance_comm (st.cellAt s) (st.cellAt a),
            distance_comm (st.cellAt t) (st.cellAt a), c1, z1, z2]
        · have hσb : swapFn s t b = b := by simp [swapFn, hb1, hb2]
          simp only [key, hσa, hσb, if_neg ha1, if_neg ha2, if_neg hb1, if_neg hb2]
          ring

theorem sum_filter_ite (p : ℕ × ℕ → Bool) (f : ℕ × ℕ → ℤ) (E : List (ℕ × ℕ)) :
    ((E.filter p).map f).sum = (E.map (fun ed => if p ed then f ed else 0)).sum := by
  induction E with
  | nil => rfl
  | cons e E ih =>
    rw [List.filter_cons]
    by_cases h : p e
    · rw [if_pos h, List.map_cons, List.sum_cons, List.map_cons, List.sum_cons, if_pos h, ih]
    · rw [if_neg h, ih, List.map_cons, List.sum_cons, if_neg h, zero_add]

/-- Summed over the edge list, the incremental update
`− cc(s) − cc(t) + cc'(s) + cc'(t)` accounts exactly for the change of the
total cost under the swap. -/
theorem edge_sum_identity (st st' : Layout) (s t : ℕ) (hst : s ≠ t)
    (hswap : ∀ k, (st'.cellAt k).rect = (st.cellAt (swapFn s t k)).rect) (E : List (ℕ × ℕ)) :
    (E.map (fun ed => distance (st'.cellAt ed.1) (st'.cellAt ed.2))).sum
      = (E.map (fun ed => distance (st.cellAt ed.1) (st.cellAt ed.2))).sum
        - ccE st E s - ccE st E t + ccE st' E s + ccE st' E t := by
  have hF : ∀ ed ∈ E, (fun ed : ℕ × ℕ => distance (st'.cellAt ed.1) (st'.cellAt ed.2)) ed
      = (fun ed : ℕ × ℕ => distance (st.cellAt ed.1) (st.cellAt ed.2)
          - (if ed.2 = s then distance (st.cellAt s) (st.cellAt ed.1) else 0)
          - (if ed.1 = s then distance (st.cellAt s) (st.cellAt ed.2) else 0)
          - (if ed.2 = t then distance (st.cellAt t) (st.cellAt ed.1) else 0)
          - (if ed.1 = t then distance (st.cellAt t) (st.cellAt ed.2) else 0)
          + (if ed.2 = s then distance (st'.cellAt s) (st'.cellAt ed.1) else 0)
          + (if ed.1 = s then distance (st'.cellAt s) (st'.cellAt ed.2) else 0)
          + (if ed.2 = t then distance (st'.cellAt t) (st'.cellAt ed.1) else 0)
          + (if ed.1 = t then distance (st'.cellAt t) (st'.cellAt ed.2) else 0)) ed :=
    fun ed _ => per_edge st st' s t hst hswap ed.1 ed.2
  rw [List.map_congr_left hF]
  rw [List.sum_map_add, List.sum_map_add, List.sum_map_add, List.sum_map_add,
    sum_map_sub_int, sum_map_sub_int, sum_map_sub_int, sum_map_sub_int]
  unfold ccE
  simp only [sum_filter_ite, beq_iff_eq]
  ring

/-- C4: starting from a running cost equal to `calculateCost()`, the
incremental update `newCost = cost − cc(s) − cc(t) [before] + cc(s) +
cc(t) [after]` of a pairwise swap equals `calculateCost()` recomputed from
scratch on the post-swap layout — also when the two cells are connected to
each other or share neighbors. -/
theorem incremental_cost_matches_recomputation (minW : ℤ) (st : Layout) (ch : Change)
    (E : List (ℕ × ℕ)) (hwf : edgesWF st E)
    (hso : (st.cellAt ch.sourceCell).out = outFrom E ch.sourceCell)
    (hsi : (st.cellAt ch.sourceCell).inn = innFrom E ch.sourceCell)
    (hto : (st.cellAt ch.targetCell).out = outFrom E ch.targetCell)
    (hti : (st.cellAt ch.targetCell).inn = innFrom E ch.targetCell)
    (hpl : planned st ch)
    (hsx : (st.cellAt ch.sourceCell).rect.x
        = (st.rows.getD ch.sourceRow default).rectX + (ch.sourceIndex : ℤ) * minW)
    (hsy : (st.cellAt ch.sourceCell).rect.y = (st.rows.getD ch.sourceRow default).rectY)
    (htx : (st.cellAt ch.targetCell).rect.x
        = (st.rows.getD ch.targetRow default).rectX + (ch.targetIndex : ℤ) * minW)
    (hty : (st.cellAt ch.targetCell).rect.y = (st.rows.getD ch.targetRow default).rectY)
    (hw : (st.cellAt ch.sourceCell).rect.w = (st.cellAt ch.targetCell).rect.w)
    (hhh : (st.cellAt ch.sourceCell).rect.h = (st.cellAt ch.targetCell).rect.h) :
    calculateCost st
      - compoundCost st (st.cellAt ch.sourceCell)
      - compoundCost st (st.cellAt ch.targetCell)
      + compoundCost (doChange minW ch st) ((doChange minW ch st).cellAt ch.sourceCell)
      + compoundCost (doChange minW ch st) ((doChange minW ch st).cellAt ch.targetCell)
      = calculateCost (doChange minW ch st) := by
  have h7 := hpl.2.2.2.2.2.2.1
  have h8 := hpl.2.2.2.2.2.2.2.1
  have h9 := hpl.2.2.2.2.2.2.2.2
  have hswap : ∀ k, ((doChange minW ch st).cellAt k).rect
      = (st.cellAt (swapFn ch.sourceCell ch.targetCell k)).rect :=
    doChange_rect_swap minW st ch h7 h8 h9 hsx hsy htx hty hw hhh
  have hfields := doChange_cellFields minW ch st
  have hwf' : edgesWF (doChange minW ch st) E := by
    refine ⟨?_, ?_, ?_⟩
    · rw [doChange_all]
      exact hwf.1
    · intro a ha
      rw [(hfields a).2.2]
      rw [doChange_all] at ha
      exact hwf.2.1 a ha
    · intro ed hed
      rw [doChange_all]
      exact hwf.2.2 ed hed
  have hccs : compoundCost st (st.cellAt ch.sourceCell) = ccE st E ch.sourceCell :=
    compoundCost_eq_ccE st E ch.sourceCell hso hsi
  have hcct : compoundCost st (st.cellAt ch.targetCell) = ccE st E ch.targetCell :=
    compoundCost_eq_ccE st E ch.targetCell hto hti
  have hccs' : compoundCost (doChange minW ch st) ((doChange minW ch st).cellAt ch.sourceCell)
      = ccE (doChange minW ch st) E ch.sourceCell :=
    compoundCost_eq_ccE _ E ch.sourceCell
      ((hfields ch.sourceCell).2.2.trans hso) ((hfields ch.sourceCell).2.1.trans hsi)
  have hcct' : compoundCost (doChange minW ch st) ((doChange minW ch st).cellAt ch.targetCell)
      = ccE (doChange minW ch st) E ch.targetCell :=
    compoundCost_eq_ccE _ E ch.targetCell
      ((hfields ch.targetCell).2.2.trans hto) ((hfields ch.targetCell).2.1.trans hti)
  rw [calculateCost_eq_edgeCost st E hwf, calculateCost_eq_edgeCost _ E hwf',
    hccs, hcct, hccs', hcct']
  have := edge_sum_identity st (doChange minW ch st) ch.sourceCell ch.targetCell h7 hswap E
  linarith

theorem incremental_cost_matches_recomputation_witness :
    edgesWF stEx [(0, 1)] ∧ planned stEx chEx ∧
      (calculateCost stEx
          - compoundCost stEx (stEx.cellAt chEx.sourceCell)
          - compoundCost stEx (stEx.cellAt chEx.targetCell)
          + compoundCost (doChange 2 chEx stEx) ((doChange 2 chEx stEx).cellAt chEx.sourceCell)
          + compoundCost (doChange 2 chEx stEx) ((doChange 2 chEx stEx).cellAt chEx.targetCell)
        = calculateCost (doChange 2 chEx stEx)) :=
  ⟨by decide, by decide,
    incremental_cost_matches_recomputation 2 stEx chEx [(0, 1)] (by decide) (by decide)
      (by decide) (by decide) (by decide) (by decide) (by decide) (by decide) (by decide)
      (by decide) (by decide) (by decide)⟩

/-- Modelled from the spec's words, for comparison with the code: the
running maximum of the spacing-adjusted `cell.y + cell.h` (spec section
4.4 applies `cell.y += j × minEdgeLength` first and then tracks the
running maximum of the adjusted value). -/
def specMaxHeightCell (e : ℚ) (j : ℕ) (heap : List Cell) (cid : ℕ) (mH : ℚ) : ℚ :=
  let c := heap.getD cid default
  let y' := qtrunc ((c.rect.y : ℚ) + (j : ℚ) * e)
  max mH ((y' + c.rect.h : ℤ) : ℚ)

/-- Modelled from the spec: the spacing-adjusted `maxHeight` over all
rows. -/
def specMaxHeight (e : ℚ) : List Row → ℕ → List Cell → ℚ → ℚ
  | [], _, _, mH => mH
  | row :: rest, j, heap, mH =>
      specMaxHeight e rest (j + 1) heap
        (row.cells.foldl (fun m cid => specMaxHeightCell e j heap cid m) mH)

/-- Two active 40×40 cells in two rows with `minEdgeLength = 10`. -/
def stC5 : Layout :=
  { minEdgeLength := 10
    all := [0, 1]
    rows := [⟨0, 0, [0]⟩, ⟨0, 40, [1]⟩]
    cellHeap :=
      [⟨[], [], some 0, ⟨0, 0, 40, 40⟩, ⟨0, 0, 0, 0⟩⟩,
       ⟨[], [], some 1, ⟨0, 40, 40, 40⟩, ⟨0, 0, 0, 0⟩⟩] }

/-- C5 (code bug): `extract` reads `rect.y + rect.h` into `maxHeight`
BEFORE adding the row spacing `j × minEdgeLength` to `rect.y`
(`layout_optimizer.cpp` lines 256-258), while `maxWidth` is tracked from
the already adjusted `x`.  On two 40×40 cells stacked in two rows with
`minEdgeLength = 10`, the code's `maxHeight` is 80, whereas the
spacing-adjusted running maximum required by the claim is 90; the final
`y` locations written are −20 and 30, not the −25 and 25 that centering
about the spacing-adjusted bounding box would give. -/
theorem extract_maxHeight_uses_unspaced_y :
    (extractPass stC5.minEdgeLength stC5.rows 0 (stC5.cellHeap, 0, 0)).2.2 = 80 ∧
    specMaxHeight stC5.minEdgeLength stC5.rows 0 stC5.cellHeap 0 = 90 ∧
    (extractWrites 40 40 stC5).map (fun w => w.2.2) = [-20, 30] := by
  have ht0 : qtrunc ((0 : ℚ) + 0 * 10) = 0 := by
    unfold qtrunc
    rw [if_pos (by norm_num), ratFloor_eq_intFloor]
    norm_num
  have ht50 : qtrunc ((40 : ℚ) + 1 * 10) = 50 := by
    unfold qtrunc
    rw [if_pos (by norm_num), ratFloor_eq_intFloor]
    norm_num
  refine ⟨?_, ?_, ?_⟩
  · norm_num [stC5, extractPass, extractRowPass, extractCellPass, qtrunc,
      ratFloor_eq_intFloor, max_def]
  · norm_num [stC5, specMaxHeight, specMaxHeightCell, qtrunc, ratFloor_eq_intFloor, max_def]
  · norm_num [stC5, extractWrites, extractPass, extractRowPass, extractCellPass, qtrunc,
      ratFloor_eq_intFloor, max_def, show Int.tdiv 40 2 = 20 from by decide]

end Heimer
